import Mathlib

/-!
# mtime: save-mtime / restore-mtime

A shallow embedding of the two programs under `mtime/`:

* `save-mtime/main.go` walks a directory tree and records, for every entry that is
  neither a directory nor a symbolic link, its path relative to the root, the hex
  SHA-256 of its content and its modification time; it writes the records to
  `file_info.json` in the working directory;
* `restore-mtime/main.go` reads such a manifest and, for every entry whose target
  file still has the recorded hash, sets access and modification time to the
  recorded time.

## Conventions of the embedding

* A path string is represented by the list of its slash-separated elements
  (`"a/b"` is `["a", "b"]`, `"/a"` is `["", "a"]`, `"/"` is `["", ""]`, the empty
  string is `[""]`).  Concatenating two path strings with a separator in between
  is list append.  Names are Unicode strings.
* `Clean`, `Join` and `Rel` follow Go's `path/filepath` on a slash-separated
  platform.  The kernel's resolution of a path is taken to agree with the
  location of the cleaned path, which holds when no element is a link.
* The file system is a tree of named nodes: regular files, directories and
  symbolic links (devices, sockets and pipes are not modelled).  A file has one
  name (no hard links), and the destination of a symbolic link is not part of
  the model: a path that ends at, or passes through, a symbolic link does not
  resolve, as for a dangling link.  Statements that depend on where links lead
  are made for file systems without links.  The order of the entries of a
  directory is the order in which `ReadDir` returns them.
* Failures of the environment are attributes of the nodes: whether a file can be
  opened and read, whether a directory can be listed, whether the metadata of an
  entry can be read, whether the timestamps may be set, whether a file can be
  written or created.
* An instant is an integer count of nanoseconds since 1970, without bounds.
  `os.Chtimes` (as on Linux) leaves a timestamp alone when it is handed the zero
  value of `time.Time`, and hands over any other instant as `Time.UnixNano`,
  that is wrapped to 64 bits; the file system keeps what its resolution and
  range allow (`Env.storedMtime`, `Env.storedAtime`).
* Reading a file or listing a directory can move its access time; what a read
  does to the access time is a parameter (`Env.atimeOnRead`), as is the clock.
* The JSON encoding of a time (`Time.MarshalJSON`) and the strict RFC 3339 reader
  of `time.Parse` are defined here; what `time.Parse` makes of other texts, the
  local time zone and SHA-256 are parameters (`Env`).  The JSON text of a
  manifest is a parameter, and the records are taken to be read back as they
  were written.
* Messages printed by the programs are not modelled.  `Restore.main` is the
  function from the parsed manifest on; reading the manifest file, which comes
  before, can move the access time of that file only.
-/

deriving instance DecidableEq for Except

namespace Mtime

/-! ## Paths -/

/-- A path string, as the list of its slash-separated elements. -/
abbrev Path := List String

/-- The empty path string. -/
def Path.isEmpty : Path → Bool
  | [] => true
  | [c] => c == ""
  | _ => false

/-- A path string that starts with a separator. -/
def isRooted : Path → Bool
  | c :: _ :: _ => c == ""
  | _ => false

/-- One step of the lexical processing of `Clean`: the elements kept so far are
held as a stack (top first).  Empty elements and `.` are dropped; `..` removes
the preceding element when there is one that is not itself `..`; at the start of
a rooted path `..` is dropped, at the start of a relative path it is kept. -/
def cleanStep (rooted : Bool) (st : List String) (c : String) : List String :=
  if c = "" ∨ c = "." then st
  else if c = ".." then
    match st with
    | [] => if rooted then [] else [".."]
    | top :: rest => if top = ".." then ".." :: top :: rest else rest
  else c :: st

/-- Processes the elements `p` on top of the stack `init`. -/
def cleanStack (rooted : Bool) (init : List String) (p : List String) : List String :=
  p.foldl (cleanStep rooted) init

/-- The elements of `Clean p`, in order, without the leading separator. -/
def cleanElems (p : Path) : List String :=
  (cleanStack (isRooted p) [] p).reverse

/-- The path string with the given elements: `/` alone for a rooted path without
elements, `.` for a relative one. -/
def render (rooted : Bool) (elems : List String) : Path :=
  if rooted then
    match elems with
    | [] => ["", ""]
    | _ => "" :: elems
  else
    match elems with
    | [] => ["."]
    | _ => elems

/-- Go's `filepath.Clean`. -/
def Clean (p : Path) : Path :=
  render (isRooted p) (cleanElems p)

/-- Go's `filepath.Join` for two elements: empty elements are ignored, the rest
is joined with a separator and cleaned; when both are empty the result is the
empty string. -/
def Join (a b : Path) : Path :=
  match a.isEmpty, b.isEmpty with
  | true, true => [""]
  | true, false => Clean b
  | false, true => Clean a
  | false, false => Clean (a ++ b)

/-- The loop and the result of Go's `filepath.Rel` on the elements of the cleaned
base and target: shared leading elements are passed over; when the elements at
which the two part are reached and the one of the base is `..`, the call fails;
otherwise the result climbs out of what is left of the base and continues with
what is left of the target. -/
def relFrom : List String → List String → Except String Path
  | b :: bs, t :: ts =>
    if b = t then relFrom bs ts
    else if b = ".." then .error "Rel: can't make relative"
    else .ok (List.replicate (b :: bs).length ".." ++ t :: ts)
  | b :: bs, [] => .ok (List.replicate (b :: bs).length "..")
  | [], ts => .ok ts

/-- Go's `filepath.Rel`: the path of `targ` relative to `base`, both cleaned
first.  Equal paths give `.`; the call fails when one path is rooted and the
other is not.  A base `.` counts as having no elements; a target `.` is kept as
the one element `.`. -/
def Rel (base targ : Path) : Except String Path :=
  let B := cleanElems base
  let T := cleanElems targ
  if isRooted base = isRooted targ ∧ B = T then .ok ["."]
  else if isRooted base ≠ isRooted targ then .error "Rel: can't make relative"
  else relFrom B (if T = [] ∧ isRooted targ = false then ["."] else T)

/-- The absolute location a path string names for a process whose working
directory has the elements `cwd`: the elements from the file-system root. -/
def locate (cwd : List String) (p : Path) : List String :=
  (cleanStack true (if isRooted p then [] else cwd.reverse) p).reverse

/-- A name that is an ordinary file name: not empty, not `.` and not `..`. -/
def validName (c : String) : Bool :=
  c != "" && c != "." && c != ".."

/-! ## Time -/

/-- An instant, in nanoseconds since the Unix epoch. -/
abbrev Time := Int

/-- The zero value of `time.Time`: January 1 of the year 1, 00:00:00 UTC. -/
def zeroTime : Time := -62135596800000000000

/-- The value Go's `Time.UnixNano` returns: the nanoseconds since the epoch as a
64-bit integer, wrapped around when they do not fit. -/
def wrap64 (t : Time) : Time :=
  (t + 9223372036854775808) % 18446744073709551616 - 9223372036854775808

/-- The nanoseconds since the epoch fit a 64-bit integer. -/
def inInt64 (t : Time) : Bool :=
  decide (-9223372036854775808 ≤ t ∧ t < 9223372036854775808)

/-- Leap years of the proleptic Gregorian calendar. -/
def isLeap (y : Nat) : Bool :=
  (y % 4 == 0 && y % 100 != 0) || y % 400 == 0

/-- The number of days from January 1 of the year 0 to January 1 of the year `y`. -/
def daysBeforeYear (y : Nat) : Nat :=
  365 * y + (y + 3) / 4 - (y + 99) / 100 + (y + 399) / 400

/-- The number of days of a year before its month with index `m` (0 for
January); for `m = 12` the length of the year. -/
def daysBeforeMonth (leap : Bool) (m : Nat) : Nat :=
  [0, 31, 59, 90, 120, 151, 181, 212, 243, 273, 304, 334].getD m 365
    + (if leap && decide (2 ≤ m) then 1 else 0)

/-- The largest year among `0..k` that starts on or before day `d`. -/
def yearFrom (d : Nat) : Nat → Nat
  | 0 => 0
  | k + 1 => if daysBeforeYear (k + 1) ≤ d then k + 1 else yearFrom d k

/-- The year the day `d` (counted from January 1 of the year 0) lies in. -/
def yearOf (d : Nat) : Nat := yearFrom d (d / 365)

/-- The largest month index among `0..k` that starts on or before day `doy` of the year. -/
def monthFrom (leap : Bool) (doy : Nat) : Nat → Nat
  | 0 => 0
  | k + 1 => if daysBeforeMonth leap (k + 1) ≤ doy then k + 1 else monthFrom leap doy k

/-- The decimal digit of the units of `n`. -/
def digitChar (n : Nat) : Char := Char.ofNat (48 + n % 10)

/-- The value of a decimal digit. -/
def digitVal (c : Char) : Option Nat :=
  if 48 ≤ c.toNat ∧ c.toNat ≤ 57 then some (c.toNat - 48) else none

def isDigit (c : Char) : Bool := (digitVal c).isSome

/-- The last two decimal digits of `n`. -/
def twoDigits (n : Nat) : List Char := [digitChar (n / 10), digitChar n]

/-- The last four decimal digits of `n`. -/
def fourDigits (n : Nat) : List Char :=
  [digitChar (n / 1000), digitChar (n / 100), digitChar (n / 10), digitChar n]

/-- The last nine decimal digits of `n`. -/
def nineDigits (n : Nat) : List Char :=
  [digitChar (n / 100000000), digitChar (n / 10000000), digitChar (n / 1000000),
   digitChar (n / 100000), digitChar (n / 10000), digitChar (n / 1000),
   digitChar (n / 100), digitChar (n / 10), digitChar n]

/-- Removes the trailing zeros. -/
def trimZeros (cs : List Char) : List Char :=
  (cs.reverse.dropWhile (fun c => c == '0')).reverse

/-- The fractional seconds as `RFC3339Nano` prints them: nothing for zero,
otherwise a period and the nine digits without trailing zeros. -/
def fracChars (nsec : Nat) : List Char :=
  if nsec = 0 then [] else '.' :: trimZeros (nineDigits nsec)

/-- The zone offset in minutes as Go computes it from the offset in seconds:
`offset / 60` with the division truncating toward zero. -/
def zoneMinutes (offset : Int) : Int :=
  if offset < 0 then -((-offset) / 60) else offset / 60

/-- The zone as `RFC3339` prints it, for an offset in seconds east of UTC: `Z`
for the offset zero, otherwise sign, hours and minutes. -/
def zoneChars (offset : Int) : List Char :=
  if offset = 0 then ['Z']
  else (if zoneMinutes offset < 0 then '-' else '+')
    :: (twoDigits ((zoneMinutes offset).natAbs / 60)
        ++ ':' :: twoDigits ((zoneMinutes offset).natAbs % 60))

/-- The text `time.Time.MarshalJSON` writes (without the quotes) for the instant
`t` seen in a zone `offset` seconds east of UTC: local date and time of day,
the fraction of the second without trailing zeros, the zone.  The encoding fails
for a year outside `0..9999` and for a zone of 24 hours or more. -/
def formatRFC3339Nano (offset : Int) (t : Time) : Except String String :=
  let locNs := t + offset * 1000000000
  let secs := locNs / 1000000000
  let nsec := (locNs % 1000000000).toNat
  let day := secs / 86400 + 719528
  let sod := (secs % 86400).toNat
  if day < 0 then .error "Time.MarshalJSON: year outside of range [0,9999]"
  else
    let d := day.toNat
    let y := yearOf d
    if 10000 ≤ y then .error "Time.MarshalJSON: year outside of range [0,9999]"
    else if 24 ≤ (zoneMinutes offset).natAbs / 60 then
      .error "Time.MarshalJSON: timezone hour outside of range [0,23]"
    else
      let doy := d - daysBeforeYear y
      let m := monthFrom (isLeap y) doy 11
      let dom := doy - daysBeforeMonth (isLeap y) m
      .ok (String.mk
        (fourDigits y ++ '-' :: (twoDigits (m + 1) ++ '-' :: (twoDigits (dom + 1) ++ 'T' ::
          (twoDigits (sod / 3600) ++ ':' :: (twoDigits (sod % 3600 / 60) ++ ':' ::
            (twoDigits (sod % 60) ++ (fracChars nsec ++ zoneChars offset))))))))

/-- Reads two decimal digits. -/
def parse2 : List Char → Option (Nat × List Char)
  | a :: b :: rest =>
    match digitVal a, digitVal b with
    | some x, some y => some (x * 10 + y, rest)
    | _, _ => none
  | _ => none

/-- Reads four decimal digits. -/
def parse4 : List Char → Option (Nat × List Char)
  | a :: b :: c :: d :: rest =>
    match digitVal a, digitVal b, digitVal c, digitVal d with
    | some x, some y, some z, some w => some (x * 1000 + y * 100 + z * 10 + w, rest)
    | _, _, _, _ => none
  | _ => none

/-- Reads the given character. -/
def expect (c : Char) : List Char → Option (List Char)
  | x :: rest => if x = c then some rest else none
  | [] => none

/-- The value of a digit string. -/
def digitsVal (cs : List Char) : Nat :=
  cs.foldl (fun acc c => acc * 10 + (digitVal c).getD 0) 0

/-- The nanoseconds a string of fraction digits stands for. -/
def nanosOf (ds : List Char) : Nat :=
  digitsVal ((ds ++ List.replicate 9 '0').take 9)

/-- Reads the optional fractional seconds: a period followed by digits, of which
the first nine count. -/
def parseFrac : List Char → Nat × List Char
  | c :: d :: rest =>
    if c = '.' ∧ isDigit d = true then
      (nanosOf ((d :: rest).takeWhile isDigit), (d :: rest).dropWhile isDigit)
    else (0, c :: d :: rest)
  | cs => (0, cs)

/-- Reads the zone, which ends the text: `Z` or a signed offset `hh:mm`; the
result is in minutes east of UTC. -/
def parseZone : List Char → Option Int
  | [] => none
  | s :: rest =>
    if s = 'Z' then (if rest = [] then some 0 else none)
    else if s = '+' ∨ s = '-' then
      match parse2 rest with
      | some (h, r1) =>
        match expect ':' r1 with
        | some r2 =>
          match parse2 r2 with
          | some (m, []) =>
            if h < 24 ∧ m < 60 then
              some (if s = '-' then -((h * 60 + m : Nat) : Int) else ((h * 60 + m : Nat) : Int))
            else none
          | _ => none
        | none => none
      | none => none
    else none

/-- The instant of a civil date and time of day in a zone `z` minutes east of
UTC, when the fields are in range. -/
def civilTime (y mon day h mi s nsec : Nat) (z : Int) : Option Time :=
  if 1 ≤ mon ∧ mon ≤ 12 ∧ 1 ≤ day
      ∧ day ≤ daysBeforeMonth (isLeap y) mon - daysBeforeMonth (isLeap y) (mon - 1)
      ∧ h < 24 ∧ mi < 60 ∧ s < 60 then
    some ((((daysBeforeYear y + daysBeforeMonth (isLeap y) (mon - 1) + (day - 1) : Nat) : Int)
        - 719528) * 86400000000000
      + ((h * 3600 + mi * 60 + s : Nat) : Int) * 1000000000 + (nsec : Int)
      - z * 60000000000)
  else none

/-- The reader of the time library for texts in the strict form of RFC 3339
(`parseRFC3339` of Go's package `time`), on the characters of the text: date,
`T`, time of day, optional fraction, zone; every field is checked for its range. -/
def parseRFC3339Chars (cs : List Char) : Option Time :=
  match parse4 cs with
  | none => none
  | some (y, r1) =>
  match expect '-' r1 with
  | none => none
  | some r2 =>
  match parse2 r2 with
  | none => none
  | some (mon, r3) =>
  match expect '-' r3 with
  | none => none
  | some r4 =>
  match parse2 r4 with
  | none => none
  | some (day, r5) =>
  match expect 'T' r5 with
  | none => none
  | some r6 =>
  match parse2 r6 with
  | none => none
  | some (h, r7) =>
  match expect ':' r7 with
  | none => none
  | some r8 =>
  match parse2 r8 with
  | none => none
  | some (mi, r9) =>
  match expect ':' r9 with
  | none => none
  | some r10 =>
  match parse2 r10 with
  | none => none
  | some (s, r11) =>
  match parseZone (parseFrac r11).2 with
  | none => none
  | some z => civilTime y mon day h mi s (parseFrac r11).1 z

/-- The reader of the time library for texts in the strict form of RFC 3339. -/
def parseRFC3339 (s : String) : Option Time := parseRFC3339Chars s.data

/-! ## File system -/

/-- What the programs observe of one file-system entry besides its type. -/
structure Attr where
  /-- Modification time. -/
  mtime : Time
  /-- Access time. -/
  atime : Time
  /-- Content (regular files). -/
  content : String
  /-- Opening and reading the file succeeds; for a directory, `ReadDir` succeeds. -/
  readable : Bool
  /-- The caller may set the timestamps (`Chtimes` succeeds). -/
  settable : Bool
  /-- Reading the metadata of the directory entry (`DirEntry.Info`) succeeds. -/
  infoOk : Bool
  /-- Opening the file for writing succeeds; for a directory, an entry can be
  created in it. -/
  writable : Bool
  deriving DecidableEq, Repr

/-- A file-system entry with everything below it; the entries of a directory are
named and stand in `ReadDir` order. -/
inductive Node where
  | file (a : Attr)
  | symlink (a : Attr)
  | dir (a : Attr) (entries : List (String × Node))

/-- The type of an entry. -/
inductive Kind where
  | regular
  | symlink
  | directory
  deriving DecidableEq, Repr

/-- The type of a node. -/
def Node.kind : Node → Kind
  | .file _ => .regular
  | .symlink _ => .symlink
  | .dir _ _ => .directory

/-- The attributes of a node. -/
def Node.attr : Node → Attr
  | .file a => a
  | .symlink a => a
  | .dir a _ => a

/-- The node with its attributes changed by `f`. -/
def Node.mapAttr (f : Attr → Attr) : Node → Node
  | .file x => .file (f x)
  | .symlink x => .symlink (f x)
  | .dir x es => .dir (f x) es

/-- The first entry with the given name. -/
def findEntry (c : String) : List (String × Node) → Option Node
  | [] => none
  | (name, n) :: rest => if name = c then some n else findEntry c rest

/-- Applies `f` to the first entry with the given name. -/
def modifyEntry (c : String) (f : Node → Node) : List (String × Node) → List (String × Node)
  | [] => []
  | (name, n) :: rest =>
    if name = c then (name, f n) :: rest else (name, n) :: modifyEntry c f rest

/-- The node at a location below `n`; nothing lies below a file or a link. -/
def Node.lookup : Node → List String → Option Node
  | n, [] => some n
  | .dir _ es, c :: cs =>
    match findEntry c es with
    | some ch => ch.lookup cs
    | none => none
  | _, _ :: _ => none

/-- Changes the attributes of the node at a location below `n` by `f`. -/
def Node.modifyAt (f : Attr → Attr) : Node → List String → Node
  | n, [] => n.mapAttr f
  | .dir x es, c :: cs => .dir x (modifyEntry c (fun ch => ch.modifyAt f cs) es)
  | n, _ :: _ => n

/-- Writes a regular file at a location below `n`: an existing regular file that
can be written gets its attributes changed by `f`; a missing last element is
created with the attributes `fresh` in a directory that can be written, whose
attributes are changed by `g`.  Nothing else succeeds. -/
def Node.putFile (fresh : Attr) (f g : Attr → Attr) : Node → List String → Option Node
  | .file a, [] => if a.writable then some (.file (f a)) else none
  | .symlink _, [] => none
  | .dir _ _, [] => none
  | .dir a es, c :: cs =>
    match findEntry c es with
    | some ch =>
      match ch.putFile fresh f g cs with
      | some ch' => some (.dir a (modifyEntry c (fun _ => ch') es))
      | none => none
    | none =>
      if cs = [] ∧ a.writable = true then some (.dir (g a) (es ++ [(c, .file fresh)]))
      else none
  | .file _, _ :: _ => none
  | .symlink _, _ :: _ => none

/-- The state the programs run in: the working directory of the process, the
tree below the file-system root, and the number of reads and writes of files
done so far. -/
structure FS where
  cwd : List String
  root : Node
  tick : Nat

/-- One record of the manifest file, as the snapshotter writes it. -/
structure ManifestRecord where
  path : Path
  hash : String
  mod_time : String
  is_directory : Bool
  deriving DecidableEq, Repr

/-- What the programs take from their environment. -/
structure Env where
  /-- Hex encoding of the SHA-256 digest of a content. -/
  sha256hex : String → String
  /-- The access time a file or directory has after it was read, given the number
  of reads and writes done before and the attributes it had (the mount decides:
  `noatime` keeps the access time, `strictatime` sets the time of the read). -/
  atimeOnRead : Nat → Attr → Time
  /-- The time of the clock at a write, given the number of reads and writes
  done before. -/
  now : Nat → Time
  /-- The offset of the local time zone at an instant, in seconds east of UTC. -/
  zoneOffset : Time → Int
  /-- The modification time the file system keeps when it is asked to set the
  given one (its resolution and range decide). -/
  storedMtime : Time → Time
  /-- The access time the file system keeps when it is asked to set the given one. -/
  storedAtime : Time → Time
  /-- What `time.Parse(time.RFC3339, .)` makes of a text that is not in the strict
  form of RFC 3339 (the general layout parser of the time library). -/
  parseGeneral : String → Option Time
  /-- The text `json.MarshalIndent` gives for the records of a manifest. -/
  jsonText : List ManifestRecord → String

/-- Go's `time.Parse(time.RFC3339, s)`: a text in the strict form of RFC 3339 is
read by `parseRFC3339`, any other text is left to the general parser. -/
def time_Parse (env : Env) (s : String) : Option Time :=
  match parseRFC3339 s with
  | some t => some t
  | none => env.parseGeneral s

/-- The node a path string names, symbolic links not followed; the empty path
names nothing. -/
def os_Lstat (fs : FS) (path : Path) : Option Node :=
  if path.isEmpty then none else fs.root.lookup (locate fs.cwd path)

/-- The node a path string names for the calls that follow symbolic links
(`os.Stat`, `os.Open`, `os.Chtimes`); `none` stands for an error for which
`os.IsNotExist` holds.  The destination of a link is not part of the model: a
link counts as dangling.  (For a path through a regular file the real call
fails with another error, after which opening the file fails: the loop of the
restorer skips the entry in both cases.) -/
def os_Stat (fs : FS) (path : Path) : Option Node :=
  match os_Lstat fs path with
  | some (.symlink _) => none
  | r => r

/-- The timestamp `os.Chtimes` leaves when it is given the time `t` and the file
has the timestamp `old`: a zero `time.Time` leaves the timestamp as it is, any
other time is handed over as `t.UnixNano()`, of which the file system keeps
`stored`. -/
def chtime (stored : Time → Time) (t old : Time) : Time :=
  if t = zeroTime then old else stored (wrap64 t)

/-- The attributes after `os.Chtimes` with the given times. -/
def Attr.chtimes (env : Env) (atime mtime : Time) (x : Attr) : Attr :=
  { x with atime := chtime env.storedAtime atime x.atime,
           mtime := chtime env.storedMtime mtime x.mtime }

/-- The attributes after a read at the given count of reads and writes. -/
def Attr.afterRead (env : Env) (tick : Nat) (x : Attr) : Attr :=
  { x with atime := env.atimeOnRead tick x }

/-- The state with the attributes at a location changed by `f`. -/
def FS.modify (fs : FS) (f : Attr → Attr) (loc : List String) : FS :=
  { fs with root := fs.root.modifyAt f loc }

/-- The state after one more read or write. -/
def FS.next (fs : FS) : FS :=
  { fs with tick := fs.tick + 1 }

/-- Go's `os.Chtimes`: sets access and modification time of the named node.  When
both times are the zero time there is nothing to set, and the call succeeds
without looking at the path. -/
def os_Chtimes (env : Env) (fs : FS) (path : Path) (atime mtime : Time) : Except String FS :=
  if atime = zeroTime ∧ mtime = zeroTime then .ok fs
  else
    match os_Stat fs path with
    | none => .error "chtimes: no such file or directory"
    | some n =>
      if n.attr.settable then
        .ok (fs.modify (Attr.chtimes env atime mtime) (locate fs.cwd path))
      else .error "chtimes: operation not permitted"

/-- The function `hash_file` (the same in both programs): opens the file and
hashes what it reads.  Opening fails for a missing or unreadable file, reading
fails for a directory.  Reading a regular file may move its access time. -/
def hash_file (env : Env) (fs : FS) (path : Path) : Except String String × FS :=
  match os_Stat fs path with
  | some (.file a) =>
    if a.readable then
      (.ok (env.sha256hex a.content),
       (fs.modify (Attr.afterRead env fs.tick) (locate fs.cwd path)).next)
    else (.error "open: permission denied", fs)
  | some (.dir _ _) => (.error "read: is a directory", fs)
  | _ => (.error "open: no such file or directory", fs)

/-- The attributes of a file created at the time `t` with the given content. -/
def Attr.created (t : Time) (content : String) : Attr :=
  { mtime := t, atime := t, content := content, readable := true, settable := true,
    infoOk := true, writable := true }

/-- The attributes of a file after its content was replaced at the time `t`. -/
def Attr.overwritten (t : Time) (content : String) (x : Attr) : Attr :=
  { x with content := content, mtime := t }

/-- The attributes of a directory after an entry was created in it at the time `t`. -/
def Attr.entryAdded (t : Time) (x : Attr) : Attr :=
  { x with mtime := t }

/-- Go's `os.WriteFile`: creates the named file or replaces the content of an
existing regular file; the written file, and the directory a file is created
in, get the time of the clock as modification time. -/
def os_WriteFile (env : Env) (fs : FS) (path : Path) (content : String) : Except String FS :=
  if path.isEmpty then .error "open: no such file or directory"
  else
    match fs.root.putFile (Attr.created (env.now fs.tick) content)
        (Attr.overwritten (env.now fs.tick) content) (Attr.entryAdded (env.now fs.tick))
        (locate fs.cwd path) with
    | none => .error "open: cannot write the file"
    | some root' => .ok { fs with root := root', tick := fs.tick + 1 }

/-- Type and attributes of a node, without what lies below it. -/
def Node.shallow (n : Node) : Kind × Attr := (n.kind, n.attr)

/-- Type and attributes of the node at an absolute location. -/
def FS.info (fs : FS) (loc : List String) : Option (Kind × Attr) :=
  (fs.root.lookup loc).map Node.shallow

/-- Modification and access time of the node at an absolute location. -/
def FS.timesAt (fs : FS) (loc : List String) : Option (Time × Time) :=
  (fs.root.lookup loc).map (fun n => (n.attr.mtime, n.attr.atime))

/-- Modification time of the node at an absolute location. -/
def FS.mtimeAt (fs : FS) (loc : List String) : Option Time :=
  (fs.root.lookup loc).map (fun n => n.attr.mtime)

/-- Type and write permission of the node at a location below `n`. -/
def Node.access (n : Node) (loc : List String) : Option (Kind × Bool) :=
  (n.lookup loc).map (fun x => (x.kind, x.attr.writable))

/-- A file can be written at the location below `n`: a regular file that can be
written is there, or nothing is there and the location is a name in a directory
that can be written. -/
def Node.canWrite (n : Node) (loc : List String) : Bool :=
  match n.access loc with
  | some (.regular, w) => w
  | some _ => false
  | none =>
    match loc with
    | [] => false
    | _ :: _ =>
      match n.access loc.dropLast with
      | some (.directory, w) => w
      | _ => false

/-- A file can be written at the absolute location. -/
def FS.canWrite (fs : FS) (loc : List String) : Bool := fs.root.canWrite loc

/-! ## restore-mtime -/

namespace Restore

/-- The type `FileInfo` of `restore-mtime/main.go`. -/
structure FileInfo where
  Path : Path
  Hash : String
  ModTime : String
  deriving DecidableEq, Repr

/-- Decoding of one manifest record into `FileInfo` by `json.Unmarshal`: the
fields the type does not declare are ignored. -/
def unmarshal (r : ManifestRecord) : FileInfo :=
  { Path := r.path, Hash := r.hash, ModTime := r.mod_time }

/-- The state of the loop of `main`. -/
structure LoopState where
  fs : FS
  updated : Nat

/-- The body of the loop of `main`, for one entry of the manifest. -/
def loopBody (env : Env) (rootDir : Path) (s : LoopState) (fileInfo : FileInfo) : LoopState :=
  let filePath := Join rootDir fileInfo.Path
  match os_Stat s.fs filePath with
  | none => s
  | some _ =>
    match hash_file env s.fs filePath with
    | (.error _, fs1) => { s with fs := fs1 }
    | (.ok h, fs1) =>
      if h ≠ fileInfo.Hash then { s with fs := fs1 }
      else
        match time_Parse env fileInfo.ModTime with
        | none => { s with fs := fs1 }
        | some modTime =>
          match os_Chtimes env fs1 filePath modTime modTime with
          | .error _ => { s with fs := fs1 }
          | .ok fs2 => { fs := fs2, updated := s.updated + 1 }

/-- What `main` reports, and the state it leaves. -/
structure Report where
  parsed : Nat
  updated : Nat
  fs : FS

/-- The function `main` of `restore-mtime`, from the parsed manifest on: the loop
over the entries and the two counts it prints.  Before, `main` checks that both
arguments are given and reads and parses the manifest file. -/
def main (env : Env) (rootDir : Path) (fileInfos : List FileInfo) (fs : FS) : Report :=
  let s := fileInfos.foldl (loopBody env rootDir) { fs := fs, updated := 0 }
  { parsed := fileInfos.length, updated := s.updated, fs := s.fs }

/-- The absolute location of the file the restorer works on for an entry. -/
def target (cwd : List String) (rootDir : Path) (fileInfo : FileInfo) : List String :=
  locate cwd (Join rootDir fileInfo.Path)

/-- The entries the restorer counts as updated: the target exists, hashing it
succeeds and gives the recorded hash, the recorded time parses and setting the
time succeeds.  Each test is made in the state `fs`; the read of the hashing
does not change the outcome of the last one. -/
def counted (env : Env) (rootDir : Path) (fs : FS) (fileInfo : FileInfo) : Bool :=
  let filePath := Join rootDir fileInfo.Path
  (os_Stat fs filePath).isSome
    && ((hash_file env fs filePath).1 == .ok fileInfo.Hash)
    && (match time_Parse env fileInfo.ModTime with
        | none => false
        | some t => (os_Chtimes env fs filePath t t).toBool)

end Restore

/-! ## save-mtime -/

namespace Save

/-- The type `FileInfo` of `save-mtime/main.go`. -/
structure FileInfo where
  Path : Path
  Hash : String
  ModTime : Time
  IsDirectory : Bool
  deriving DecidableEq, Repr

/-- The error of a failed metadata read. -/
def infoError : String := "lstat: no such file or directory"

/-- The error of a failed directory listing. -/
def readDirError : String := "open: permission denied"

/-- The function literal that `main` passes to `filepath.WalkDir`, with the slice
`fileInfos` it appends to and the file system as explicit state.  `d` is the
directory entry of the visit (absent when the root could not be examined), `err`
the error the walk reports for the entry. -/
def walkFn (env : Env) (rootDir : Path) (path : Path) (d : Option Node)
    (err : Option String) (s : List FileInfo × FS) : Except String (List FileInfo × FS) :=
  match err with
  | some e => .error e
  | none =>
    match d with
    | none => .error "invalid memory address or nil pointer dereference"
    | some d =>
      if d.kind = Kind.directory then .ok s
      else if d.attr.infoOk = false then .error infoError
      else if d.kind = Kind.symlink then .ok s
      else
        match hash_file env s.2 path with
        | (.error _, fs1) => .ok (s.1, fs1)
        | (.ok hashString, fs1) =>
          match Rel rootDir path with
          | .error e => .error e
          | .ok relPath =>
            .ok (s.1 ++ [{ Path := relPath, Hash := hashString, ModTime := d.attr.mtime,
                           IsDirectory := decide (d.kind = Kind.directory) }], fs1)

/-- The state after a directory was listed: listing is a read of the directory. -/
def afterReadDir (env : Env) (fs : FS) (path : Path) : FS :=
  (fs.modify (Attr.afterRead env fs.tick) (locate fs.cwd path)).next

mutual
/-- Go's `filepath.walkDir` for a function that returns either `nil` or an error
other than `SkipDir`/`SkipAll`: the function is called for the entry; a
directory is then listed (a failure is reported to the function by a second
call) and its entries are walked in order under the joined path.  The walk
changes no listing, so the listing is taken from the node the walk started with. -/
def walkDir {σ : Type} (env : Env)
    (fn : Path → Option Node → Option String → σ × FS → Except String (σ × FS))
    (path : Path) : Node → σ × FS → Except String (σ × FS)
  | .dir a es, s =>
    match fn path (some (.dir a es)) none s with
    | .error e => .error e
    | .ok s1 =>
      if a.readable then walkEntries env fn path es (s1.1, afterReadDir env s1.2 path)
      else fn path (some (.dir a es)) (some readDirError) s1
  | .file a, s => fn path (some (.file a)) none s
  | .symlink a, s => fn path (some (.symlink a)) none s
/-- The loop of `walkDir` over the entries of a directory. -/
def walkEntries {σ : Type} (env : Env)
    (fn : Path → Option Node → Option String → σ × FS → Except String (σ × FS))
    (path : Path) : List (String × Node) → σ × FS → Except String (σ × FS)
  | [], s => .ok s
  | (name, n) :: rest, s =>
    match walkDir env fn (Join path [name]) n s with
    | .error e => .error e
    | .ok s1 => walkEntries env fn path rest s1
end

/-- Go's `filepath.WalkDir`: the root is examined without following a link; when
that fails the function is called once with the error. -/
def WalkDir {σ : Type} (env : Env) (fs : FS) (root : Path)
    (fn : Path → Option Node → Option String → σ × FS → Except String (σ × FS)) (init : σ) :
    Except String (σ × FS) :=
  match os_Lstat fs root with
  | none => fn root none (some "lstat: no such file or directory") (init, fs)
  | some n => walkDir env fn root n (init, fs)

/-- The first part of the function `main` of `save-mtime`: the usage check and
the walk, up to the slice `fileInfos` that is then encoded. -/
def mainWalk (env : Env) (rootDir : Path) (fs : FS) : Except String (List FileInfo × FS) :=
  if rootDir.isEmpty then .error "Usage: go run main.go /path/to/directory"
  else WalkDir env fs rootDir (walkFn env rootDir) []

/-- The JSON record `json.MarshalIndent` writes for one `FileInfo`: the time is
encoded by `Time.MarshalJSON` in the local zone, which can fail. -/
def marshal (env : Env) (fileInfo : FileInfo) : Except String ManifestRecord :=
  match formatRFC3339Nano (env.zoneOffset fileInfo.ModTime) fileInfo.ModTime with
  | .error e => .error e
  | .ok s => .ok { path := fileInfo.Path, hash := fileInfo.Hash, mod_time := s,
                   is_directory := fileInfo.IsDirectory }

/-- The records of a slice of `FileInfo`; the first failure ends the encoding. -/
def marshalAll (env : Env) : List FileInfo → Except String (List ManifestRecord)
  | [] => .ok []
  | fileInfo :: rest =>
    match marshal env fileInfo with
    | .error e => .error e
    | .ok r =>
      match marshalAll env rest with
      | .error e => .error e
      | .ok rs => .ok (r :: rs)

/-- The name of the file `main` writes, in the working directory. -/
def outputFile : Path := ["file_info.json"]

/-- The function `main` of `save-mtime`: the walk, the encoding of the slice and
the writing of the manifest file.  The result is the records written and the
state left. -/
def main (env : Env) (rootDir : Path) (fs : FS) : Except String (List ManifestRecord × FS) :=
  match mainWalk env rootDir fs with
  | .error e => .error e
  | .ok (fileInfos, fs1) =>
    match marshalAll env fileInfos with
    | .error e => .error e
    | .ok records =>
      match os_WriteFile env fs1 outputFile (env.jsonText records) with
      | .error e => .error e
      | .ok fs2 => .ok (records, fs2)

end Save

/-! ## Trees: enumeration and well-formedness -/

mutual
/-- The regular files at and below a node in walk order, each with the names
that lead to it, prefixed by `pre`. -/
def Node.files (pre : List String) : Node → List (List String × Attr)
  | .file a => [(pre, a)]
  | .symlink _ => []
  | .dir _ es => entriesFiles pre es
/-- The regular files below the entries of a directory, in walk order. -/
def entriesFiles (pre : List String) : List (String × Node) → List (List String × Attr)
  | [] => []
  | (name, n) :: rest => n.files (pre ++ [name]) ++ entriesFiles pre rest
end

mutual
/-- The predicate holds for the node and for every node below it. -/
def Node.all (p : Node → Bool) : Node → Bool
  | .dir a es => p (.dir a es) && entriesAll p es
  | .file a => p (.file a)
  | .symlink a => p (.symlink a)
/-- The predicate holds for every node at or below the entries. -/
def entriesAll (p : Node → Bool) : List (String × Node) → Bool
  | [] => true
  | (_, n) :: rest => n.all p && entriesAll p rest
end

mutual
/-- In every directory at or below the node the names are ordinary file names
and no name occurs twice. -/
def Node.wellFormed : Node → Bool
  | .dir _ es => entriesWellFormed es
  | .file _ => true
  | .symlink _ => true
/-- The entries have ordinary, pairwise distinct names and well-formed nodes. -/
def entriesWellFormed : List (String × Node) → Bool
  | [] => true
  | (name, n) :: rest =>
    validName name && (findEntry name rest).isNone && n.wellFormed && entriesWellFormed rest
end

/-- A directory can be listed. -/
def listable (n : Node) : Bool := n.kind != Kind.directory || n.attr.readable

/-- The metadata of an entry that is not a directory can be read. -/
def infoReadable (n : Node) : Bool := n.kind == Kind.directory || n.attr.infoOk

/-- A regular file can be read and re-timestamped. -/
def fileUsable (n : Node) : Bool := n.kind != Kind.regular || (n.attr.readable && n.attr.settable)

/-- The node is not a symbolic link. -/
def notLink (n : Node) : Bool := n.kind != Kind.symlink

/-- No symbolic link is anywhere in the file system. -/
def FS.linkFree (fs : FS) : Bool := fs.root.all notLink

/-- The modification time survives the round through the manifest and back to
the file system: it fits 64-bit nanoseconds, the local zone at that time is a
whole number of minutes and less than a day from UTC, and the file system keeps
the time as it is when asked to set it. -/
def timeKept (env : Env) (t : Time) : Bool :=
  inInt64 t && decide (env.zoneOffset t % 60 = 0) && decide (-86400 < env.zoneOffset t)
    && decide (env.zoneOffset t < 86400) && decide (env.storedMtime t = t)

/-- The modification time of a regular file survives the round through the
manifest. -/
def mtimeKept (env : Env) (n : Node) : Bool :=
  n.kind != Kind.regular || timeKept env n.attr.mtime

/-- The manifest entry the snapshotter writes for a regular file reached by the
names `p` from the root: the root itself has the relative path `.`. -/
def Save.entryOf (env : Env) (x : List String × Attr) : Save.FileInfo :=
  { Path := if x.1 = [] then ["."] else x.1, Hash := env.sha256hex x.2.content,
    ModTime := x.2.mtime, IsDirectory := false }

/-- The manifest of a tree: one entry for every regular file that can be read,
in walk order. -/
def Save.manifestOf (env : Env) (n : Node) : List Save.FileInfo :=
  ((n.files []).filter (fun x => x.2.readable)).map (Save.entryOf env)

namespace Save

/-- What the walk maintains for the path string of a visited entry that is
reached from the root by the names `ns`. -/
structure Visits (fs : FS) (rootDir : Path) (path : Path) (ns : List String) : Prop where
  nonempty : path.isEmpty = false
  rooted : isRooted path = isRooted rootDir
  elems : cleanElems path = cleanElems rootDir ++ ns
  loc : locate fs.cwd path = locate fs.cwd rootDir ++ ns

end Save

/-! ## Snapshot, then restore -/

/-- The text the snapshotter writes for a modification time (empty when the
encoding fails, in which case nothing is written at all). -/
def timeText (env : Env) (t : Time) : String :=
  match formatRFC3339Nano (env.zoneOffset t) t with
  | .ok s => s
  | .error _ => ""

/-- The record written for an entry whose time can be encoded. -/
def recordOf (env : Env) (x : Save.FileInfo) : ManifestRecord :=
  { path := x.Path, hash := x.Hash, mod_time := timeText env x.ModTime,
    is_directory := x.IsDirectory }

/-- The entry the restorer reads back for a file the snapshotter recorded. -/
def readBack (env : Env) (x : List String × Attr) : Restore.FileInfo :=
  { Path := if x.1 = [] then ["."] else x.1, Hash := env.sha256hex x.2.content,
    ModTime := timeText env x.2.mtime }

/-- The absolute location of the manifest file the snapshotter writes. -/
def FS.manifestLoc (fs : FS) : List String := locate fs.cwd Save.outputFile

/-- The manifest file is not one of the regular files below the root `n` that
lies at `rootDir`. -/
def manifestApart (fs : FS) (rootDir : Path) (n : Node) : Bool :=
  (n.files []).all (fun x => decide (locate fs.cwd rootDir ++ x.1 ≠ fs.manifestLoc))

/-- The snapshot of `rootDir` followed at once by the restore of the records it
wrote onto `rootDir`, from the same working directory. -/
def roundTrip (env : Env) (rootDir : Path) (fs : FS) : Except String Restore.Report :=
  match Save.main env rootDir fs with
  | .error e => .error e
  | .ok (records, fs1) => .ok (Restore.main env rootDir (records.map Restore.unmarshal) fs1)

/-! ## The restorer: notions used in the proofs -/

/-- The attributes with both timestamps blanked. -/
def Attr.fixed (x : Attr) : Attr :=
  { x with mtime := 0, atime := 0 }

/-- The attributes with the access time blanked. -/
def Attr.noAtime (x : Attr) : Attr :=
  { x with atime := 0 }

/-- Two states with the same working directory and, at every location, the same
node up to the timestamps. -/
def FS.SameFiles (fs fs' : FS) : Prop :=
  fs.cwd = fs'.cwd
    ∧ ∀ loc, (fs.info loc).map (fun x => (x.1, x.2.fixed))
        = (fs'.info loc).map (fun x => (x.1, x.2.fixed))

/-- Two states with the same working directory and, at every location, the same
node up to the access time. -/
def FS.SameButAtime (fs fs' : FS) : Prop :=
  fs.cwd = fs'.cwd
    ∧ ∀ loc, (fs.info loc).map (fun x => (x.1, x.2.noAtime))
        = (fs'.info loc).map (fun x => (x.1, x.2.noAtime))

namespace Restore

/-- The time the loop body hands to `os.Chtimes` for an entry in the state `fs`,
when it gets that far and the call succeeds: a closed form of the chain of tests
in the loop body. -/
def verdict (env : Env) (rootDir : Path) (fs : FS) (fileInfo : FileInfo) : Option Time :=
  if (Join rootDir fileInfo.Path).isEmpty then none
  else
    match fs.info (target fs.cwd rootDir fileInfo) with
    | some (.regular, a) =>
      if a.readable ∧ env.sha256hex a.content = fileInfo.Hash then
        match time_Parse env fileInfo.ModTime with
        | some t => if t = zeroTime ∨ a.settable then some t else none
        | none => none
      else none
    | _ => none

/-- The loop body reads the target of the entry: it is a regular file that can
be read. -/
def reads (rootDir : Path) (fs : FS) (fileInfo : FileInfo) : Bool :=
  !(Join rootDir fileInfo.Path).isEmpty
    && (match fs.info (target fs.cwd rootDir fileInfo) with
        | some (.regular, a) => a.readable
        | _ => false)

/-- The time the loop body sets for an entry, if it sets one: `os.Chtimes` sets
nothing when it is handed the zero time. -/
def written (env : Env) (rootDir : Path) (fs : FS) (fileInfo : FileInfo) : Option Time :=
  match verdict env rootDir fs fileInfo with
  | some t => if t = zeroTime then none else some t
  | none => none

/-- What the loop body makes of the attributes of a target it reads, when the
read is the one after `tick` earlier reads and writes and `v` is the time handed
to `os.Chtimes`, if any. -/
def effect (env : Env) (tick : Nat) (v : Option Time) (x : Attr) : Attr :=
  match v with
  | some t => (x.afterRead env tick).chtimes env t t
  | none => x.afterRead env tick

/-- The state the loop body leaves for an entry. -/
def after (env : Env) (rootDir : Path) (fs : FS) (fileInfo : FileInfo) : FS :=
  if reads rootDir fs fileInfo then
    match verdict env rootDir fs fileInfo with
    | some t =>
      if t = zeroTime then
        (fs.modify (Attr.afterRead env fs.tick) (target fs.cwd rootDir fileInfo)).next
      else
        ((fs.modify (Attr.afterRead env fs.tick) (target fs.cwd rootDir fileInfo)).next).modify
          (Attr.chtimes env t t) (target fs.cwd rootDir fileInfo)
    | none => (fs.modify (Attr.afterRead env fs.tick) (target fs.cwd rootDir fileInfo)).next
  else fs

/-- The loop of `main` started in the state `s`. -/
def run (env : Env) (rootDir : Path) (fileInfos : List FileInfo) (s : LoopState) : LoopState :=
  fileInfos.foldl (loopBody env rootDir) s

/-- The time set by the last entry of the manifest that is aimed at `loc` and
sets one, judged in the state `fs`. -/
def lastWritten (env : Env) (rootDir : Path) (fs : FS) (loc : List String) :
    List FileInfo → Option Time
  | [] => none
  | fileInfo :: rest =>
    match lastWritten env rootDir fs loc rest with
    | some t => some t
    | none =>
      if target fs.cwd rootDir fileInfo = loc then written env rootDir fs fileInfo else none

end Restore

/-! ## Sample data -/

/-- A stand-in for the environment: the hash of a content is the content with a
prefix; a read sets the access time to the time of the read (`1000` plus the
number of reads and writes before); the clock shows `2000` plus that number at
a write; the zone is UTC; the file system keeps every time as it is; texts that
are not in the strict form of RFC 3339 do not parse. -/
def sampleEnv : Env where
  sha256hex := fun c => "sha:" ++ c
  atimeOnRead := fun k _ => 1000 + k
  now := fun k => 2000 + k
  zoneOffset := fun _ => 0
  storedMtime := fun t => t
  storedAtime := fun t => t
  parseGeneral := fun _ => none
  jsonText := fun rs => String.intercalate ";" (rs.map (fun r => r.hash ++ "@" ++ r.mod_time))

/-- The environment `sampleEnv` on a mount that does not update access times on
reads (`noatime`). -/
def quietEnv : Env :=
  { sampleEnv with atimeOnRead := fun _ a => a.atime }

/-- The environment `sampleEnv` on a mount that updates the access time on a read
only when it is not later than the modification time or more than a day old
(`relatime`). -/
def relatimeEnv : Env :=
  { sampleEnv with
    atimeOnRead := fun k a =>
      if a.atime ≤ a.mtime ∨ a.atime + 86400000000000 < 1000 + k then 1000 + k else a.atime }

/-- The text of the instant one nanosecond after the epoch. -/
def T1 : String := "1970-01-01T00:00:00.000000001Z"

/-- The text of the instant two nanoseconds after the epoch. -/
def T2 : String := "1970-01-01T00:00:00.000000002Z"

/-- The text of the zero value of `time.Time`. -/
def T0 : String := "0001-01-01T00:00:00Z"

/-- The text of an instant whose nanoseconds since the epoch do not fit 64 bits. -/
def T2300 : String := "2300-01-01T00:00:00Z"

/-- The attributes of a regular file that can be read, written and re-timestamped. -/
def sampleAttr (content : String) (mtime atime : Time) : Attr :=
  { mtime := mtime, atime := atime, content := content, readable := true, settable := true,
    infoOk := true, writable := true }

/-- A regular file that can be read, written and re-timestamped. -/
def sampleFile (content : String) (mtime atime : Time) : Node :=
  .file (sampleAttr content mtime atime)

/-- The attributes of the sample directories. -/
def sampleDirAttr : Attr :=
  { mtime := 7, atime := 7, content := "", readable := true, settable := true, infoOk := true,
    writable := true }

/-- A directory that can be listed and written. -/
def sampleDir (entries : List (String × Node)) : Node :=
  .dir sampleDirAttr entries

/-- The tree `/r` of `sampleFS`. -/
def sampleTree : Node :=
  sampleDir [("a.txt", sampleFile "hello" 1 6),
             ("b", sampleDir [("c.txt", sampleFile "world" 2 9)])]

/-- The tree `/r/a.txt`, `/r/b/c.txt`, `/x`, seen from the working directory `/`. -/
def sampleFS : FS where
  cwd := []
  root := sampleDir [("r", sampleTree), ("x", sampleFile "out" 3 4)]
  tick := 0

/-- The root directory `/r`. -/
def sampleRoot : Path := ["", "r"]

/-- A manifest of `/r` whose entries name distinct files. -/
def sampleManifest : List Restore.FileInfo :=
  [⟨["a.txt"], "sha:hello", T2⟩, ⟨["b", "c.txt"], "sha:changed", T1⟩,
   ⟨["d.txt"], "sha:gone", T1⟩]

/-- Two entries with the distinct relative paths `a.txt` and `./a.txt`, the
first with a hash the file does not have. -/
def aliasMismatch : List Restore.FileInfo :=
  [⟨["a.txt"], "sha:other", T1⟩, ⟨[".", "a.txt"], "sha:hello", T2⟩]

/-- Two entries with the distinct relative paths `a.txt` and `./a.txt`, both
with the hash of the file and with different times. -/
def aliasMatch : List Restore.FileInfo :=
  [⟨["a.txt"], "sha:hello", T1⟩, ⟨[".", "a.txt"], "sha:hello", T2⟩]

/-- A manifest record for `a.txt` that is flagged as a directory. -/
def flaggedRecord : ManifestRecord :=
  { path := ["a.txt"], hash := "sha:hello", mod_time := T2, is_directory := true }

/-- A record that names the directory `b` and is flagged as a directory. -/
def directoryRecord : ManifestRecord :=
  { path := ["b"], hash := "sha:", mod_time := T1, is_directory := true }

/-- The attributes of a regular file that cannot be read. -/
def secretAttr : Attr :=
  { mtime := 4, atime := 4, content := "secret", readable := false, settable := true,
    infoOk := true, writable := true }

/-- A tree with a symbolic link, a file that cannot be read and two files that can. -/
def walkTree : Node :=
  sampleDir [("a.txt", sampleFile "hello" 1 6),
             ("l", .symlink sampleDirAttr),
             ("s", sampleDir [("u.txt", .file secretAttr), ("v.txt", sampleFile "world" 2 9)])]

/-- The tree `walkTree` at `/home/r`, seen from the working directory `/home`. -/
def walkFS : FS where
  cwd := ["home"]
  root := sampleDir [("home", sampleDir [("r", walkTree)])]
  tick := 0

/-- The attributes of a regular file whose metadata cannot be read. -/
def brokenAttr : Attr :=
  { mtime := 4, atime := 4, content := "gone", readable := true, settable := true,
    infoOk := false, writable := true }

/-- A tree in which the metadata of `a.txt` cannot be read. -/
def brokenTree : Node :=
  sampleDir [("a.txt", .file brokenAttr), ("b.txt", sampleFile "world" 2 9)]

/-- The tree `brokenTree` at `/r`. -/
def brokenFS : FS where
  cwd := []
  root := sampleDir [("r", brokenTree)]
  tick := 0

/-- The tree `/r` with a manifest file of an earlier snapshot in it. -/
def staleTree : Node :=
  sampleDir [("a.txt", sampleFile "hello" 1 6),
             ("b", sampleDir [("c.txt", sampleFile "world" 2 9)]),
             ("file_info.json", sampleFile "stale" 3 3)]

/-- The tree `staleTree` at `/r`, seen from the working directory `/r`. -/
def staleFS : FS where
  cwd := ["r"]
  root := sampleDir [("r", staleTree)]
  tick := 0

/-- Two entries for distinct files of `/r`, neither with the hash of its file. -/
def twoMismatches : List Restore.FileInfo :=
  [⟨["a.txt"], "sha:other", T1⟩, ⟨["b", "c.txt"], "sha:changed", T1⟩]

/-- A tree `/r` with one file whose modification time lies in the year 2300, seen
from the working directory `/`. -/
def lateFS : FS where
  cwd := []
  root := sampleDir [("r", sampleDir [("late.txt", sampleFile "late" 10413792000000000000 5)])]
  tick := 0

/-- A tree `/r` with one file whose modification time is ahead of the clock, seen
from the working directory `/`. -/
def aheadFS : FS where
  cwd := []
  root := sampleDir [("r", sampleDir [("a.txt", sampleFile "hello" 5000 6)])]
  tick := 0

/-- One entry for the file of `aheadFS`, with a hash the file does not have. -/
def oneMismatch : List Restore.FileInfo :=
  [⟨["a.txt"], "sha:other", T1⟩]

/-! ## Lemmas on paths -/

theorem cleanStack_append (r : Bool) (S : List String) (A B : List String) :
    cleanStack r S (A ++ B) = cleanStack r (cleanStack r S A) B := by
  simp [cleanStack, List.foldl_append]

theorem cleanStack_snoc (r : Bool) (S : List String) (A : List String) (c : String) :
    cleanStack r S (A ++ [c]) = cleanStep r (cleanStack r S A) c := by
  simp [cleanStack, List.foldl_append]

theorem cleanStack_cons (r : Bool) (S : List String) (A : List String) (c : String) :
    cleanStack r S (c :: A) = cleanStack r (cleanStep r S c) A := rfl

theorem cleanStep_plain (r : Bool) (S : List String) (c : String)
    (h1 : c ≠ "") (h2 : c ≠ ".") (h3 : c ≠ "..") : cleanStep r S c = c :: S := by
  simp [cleanStep, h1, h2, h3]

theorem cleanStep_mem (r : Bool) (S : List String) (c x : String)
    (hx : x ∈ cleanStep r S c) : x ∈ S ∨ (x ≠ "" ∧ x ≠ ".") := by
  unfold cleanStep at hx
  by_cases h1 : c = "" ∨ c = "."
  · simp only [h1, if_true] at hx; exact Or.inl hx
  · simp only [h1, if_false] at hx
    by_cases h2 : c = ".."
    · simp only [h2, if_true] at hx
      cases S with
      | nil =>
        cases r
        · simp at hx; subst hx; exact Or.inr ⟨by decide, by decide⟩
        · simp at hx
      | cons top rest =>
        by_cases h3 : top = ".."
        · simp only [h3, if_true] at hx
          rcases List.mem_cons.mp hx with h | h
          · subst h; exact Or.inr ⟨by decide, by decide⟩
          · exact Or.inl (h3 ▸ h)
        · simp only [h3, if_false] at hx
          exact Or.inl (List.mem_cons_of_mem _ hx)
    · simp only [h2, if_false] at hx
      rcases List.mem_cons.mp hx with h | h
      · subst h
        exact Or.inr ⟨fun h => h1 (Or.inl h), fun h => h1 (Or.inr h)⟩
      · exact Or.inl h

/-- No element kept by the cleaning is empty or `.`. -/
theorem cleanStack_mem (r : Bool) :
    ∀ (X S : List String), (∀ x ∈ S, x ≠ "" ∧ x ≠ ".") →
      ∀ x ∈ cleanStack r S X, x ≠ "" ∧ x ≠ "." := by
  intro X
  induction X with
  | nil => intro S hS x hx; exact hS x hx
  | cons c rest ih =>
    intro S hS x hx
    rw [cleanStack_cons] at hx
    refine ih (cleanStep r S c) ?_ x hx
    intro y hy
    rcases cleanStep_mem r S c y hy with h | h
    · exact hS y h
    · exact h

/-- Cleaning a path first does not change what further processing makes of it. -/
theorem cleanStack_clean (r' r : Bool) (S : List String) (hr : r' = true → r = true ∧ S = []) :
    ∀ X : List String,
      cleanStack r S (cleanStack r' [] X).reverse = cleanStack r S X := by
  intro X
  induction X using List.reverseRecOn with
  | nil => rfl
  | append_singleton Y c ih =>
    rw [cleanStack_snoc, cleanStack_snoc, ← ih]
    have hT := cleanStack_mem r' Y [] (by simp)
    generalize cleanStack r' [] Y = T at hT ⊢
    by_cases h1 : c = "" ∨ c = "."
    · simp [cleanStep, h1]
    · by_cases h2 : c = ".."
      · subst h2
        cases T with
        | nil =>
          cases r'
          · simp [cleanStep, cleanStack]
          · obtain ⟨hr1, hr2⟩ := hr rfl
            subst hr1; subst hr2
            simp [cleanStep, cleanStack]
        | cons top rest =>
          by_cases h3 : top = ".."
          · subst h3
            have : cleanStep r' (".." :: rest) ".." = ".." :: ".." :: rest := by
              simp [cleanStep]
            rw [this, List.reverse_cons, cleanStack_snoc]
          · have : cleanStep r' (top :: rest) ".." = rest := by
              simp [cleanStep, h3]
            rw [this, List.reverse_cons, cleanStack_snoc]
            obtain ⟨ha, hb⟩ := hT top (List.mem_cons_self _ _)
            rw [cleanStep_plain r _ top ha hb h3]
            simp [cleanStep, h3]
      · have h1a : c ≠ "" := fun h => h1 (Or.inl h)
        have h1b : c ≠ "." := fun h => h1 (Or.inr h)
        rw [cleanStep_plain r' T c h1a h1b h2, List.reverse_cons, cleanStack_snoc]

theorem validName_iff (c : String) : validName c = true ↔ c ≠ "" ∧ c ≠ "." ∧ c ≠ ".." := by
  simp [validName, and_assoc]

/-- Ordinary names are kept as they are. -/
theorem cleanStack_names (r : Bool) :
    ∀ (ns S : List String), (∀ c ∈ ns, validName c = true) →
      cleanStack r S ns = ns.reverse ++ S := by
  intro ns
  induction ns with
  | nil => intro S _; rfl
  | cons c rest ih =>
    intro S h
    obtain ⟨h1, h2, h3⟩ := (validName_iff c).mp (h c (List.mem_cons_self _ _))
    rw [cleanStack_cons, cleanStep_plain r S c h1 h2 h3,
      ih _ (fun x hx => h x (List.mem_cons_of_mem _ hx))]
    simp

theorem cleanStep_dotdot_mem (r : Bool) (S : List String) (c : String)
    (h : ".." ∈ S) : ".." ∈ cleanStep r S c := by
  unfold cleanStep
  by_cases h1 : c = "" ∨ c = "."
  · simp only [h1, if_true]; exact h
  · simp only [h1, if_false]
    by_cases h2 : c = ".."
    · simp only [h2, if_true]
      cases S with
      | nil => cases h
      | cons top rest =>
        by_cases h3 : top = ".."
        · simp [h3]
        · simp only [h3, if_false]
          rcases List.mem_cons.mp h with h | h
          · exact absurd h.symm h3
          · exact h
    · simp only [h2, if_false]
      exact List.mem_cons_of_mem _ h

/-- A relative path that never climbs above its own start is processed on top of
any stack without touching that stack. -/
theorem cleanStack_noClimb (r : Bool) (S : List String) :
    ∀ X : List String, ".." ∉ cleanStack false [] X →
      cleanStack r S X = cleanStack false [] X ++ S := by
  intro X
  induction X using List.reverseRecOn with
  | nil => intro _; rfl
  | append_singleton Y c ih =>
    intro h
    rw [cleanStack_snoc] at h ⊢
    have hY : ".." ∉ cleanStack false [] Y := fun hm => h (cleanStep_dotdot_mem _ _ _ hm)
    rw [cleanStack_snoc, ih hY]
    generalize cleanStack false [] Y = T at h hY ⊢
    by_cases h1 : c = "" ∨ c = "."
    · simp [cleanStep, h1]
    · by_cases h2 : c = ".."
      · subst h2
        cases T with
        | nil => simp [cleanStep] at h
        | cons top rest =>
          have h3 : top ≠ ".." := fun h3 => hY (h3 ▸ List.mem_cons_self _ _)
          simp [cleanStep, h3]
      · simp [cleanStep, h1, h2]

theorem isRooted_append (a b : Path) (ha : a.isEmpty = false) :
    isRooted (a ++ b) = isRooted a := by
  cases a with
  | nil => simp [Path.isEmpty] at ha
  | cons c rest =>
    cases rest with
    | nil =>
      have hc : (c == "") = false := by simpa [Path.isEmpty] using ha
      cases b with
      | nil => rfl
      | cons d rest' => simp [isRooted, hc]
    | cons d rest' => rfl

theorem isRooted_render_true (E : List String) : isRooted (render true E) = true := by
  cases E <;> simp [render, isRooted]

theorem isRooted_render_false (E : List String) (hE : ∀ x ∈ E, x ≠ "") :
    isRooted (render false E) = false := by
  cases E with
  | nil => simp [render, isRooted]
  | cons c rest =>
    cases rest with
    | nil => simp [render, isRooted]
    | cons d rest' =>
      have := hE c (List.mem_cons_self _ _)
      simp [render, isRooted, this]

theorem cleanStack_render (r b : Bool) (S E : List String) :
    cleanStack r S (render b E) = cleanStack r S E := by
  cases b <;> cases E <;> simp [render, cleanStack, cleanStep]

theorem isRooted_Clean (p : Path) : isRooted (Clean p) = isRooted p := by
  unfold Clean
  cases h : isRooted p with
  | true => exact isRooted_render_true _
  | false =>
    apply isRooted_render_false
    intro x hx
    unfold cleanElems at hx
    rw [h] at hx
    exact (cleanStack_mem false p [] (by simp) x (List.mem_reverse.mp hx)).1

/-- Cleaning a path string does not change what later processing makes of it. -/
theorem cleanStack_Clean (r : Bool) (S : List String) (p : Path)
    (hr : isRooted p = true → r = true ∧ S = []) :
    cleanStack r S (Clean p) = cleanStack r S p := by
  unfold Clean cleanElems
  rw [cleanStack_render]
  exact cleanStack_clean (isRooted p) r S hr p

/-- A path string and its cleaned form name the same location. -/
theorem locate_Clean (cwd : List String) (p : Path) : locate cwd (Clean p) = locate cwd p := by
  unfold locate
  rw [isRooted_Clean]
  cases h : isRooted p with
  | true =>
    simp only [if_true]
    rw [cleanStack_Clean true [] p (fun _ => ⟨rfl, rfl⟩)]
  | false =>
    simp only [Bool.false_eq_true, if_false]
    rw [cleanStack_Clean true _ p (fun h' => by rw [h] at h'; cases h')]

theorem cleanStack_empty (r : Bool) (S : List String) (p : Path) (h : p.isEmpty = true) :
    cleanStack r S p = S := by
  cases p with
  | nil => rfl
  | cons c rest =>
    cases rest with
    | nil =>
      have hc : c = "" := by simpa [Path.isEmpty] using h
      subst hc
      simp [cleanStack, cleanStep]
    | cons d rest' => simp [Path.isEmpty] at h

/-- The location of a joined path: the second path processed from the location
of the first. -/
theorem locate_Join (cwd : List String) (a b : Path) (ha : a.isEmpty = false) :
    locate cwd (Join a b) = (cleanStack true (locate cwd a).reverse b).reverse := by
  unfold Join
  cases hb : b.isEmpty with
  | true =>
    simp only [ha]
    rw [locate_Clean, cleanStack_empty _ _ b hb, List.reverse_reverse]
  | false =>
    simp only [ha]
    rw [locate_Clean]
    unfold locate
    rw [isRooted_append a b ha, cleanStack_append, List.reverse_reverse]

/-- The location of a path joined with ordinary names. -/
theorem locate_Join_names (cwd : List String) (a : Path) (ns : List String)
    (ha : a.isEmpty = false) (hns : ∀ c ∈ ns, validName c = true) :
    locate cwd (Join a ns) = locate cwd a ++ ns := by
  rw [locate_Join cwd a ns ha, cleanStack_names true ns _ hns]
  simp

/-! ## Lemmas on the time text -/

theorem digitVal_digitChar (n : Nat) : digitVal (digitChar n) = some (n % 10) := by
  have h : n % 10 < 10 := Nat.mod_lt _ (by decide)
  unfold digitChar
  generalize n % 10 = k at h
  interval_cases k <;> rfl

theorem isDigit_digitChar (n : Nat) : isDigit (digitChar n) = true := by
  simp [isDigit, digitVal_digitChar]

theorem parse2_twoDigits (n : Nat) (rest : List Char) (h : n < 100) :
    parse2 (twoDigits n ++ rest) = some (n, rest) := by
  simp only [twoDigits, List.cons_append, List.nil_append, parse2, digitVal_digitChar]
  congr 2
  omega

theorem parse4_fourDigits (n : Nat) (rest : List Char) (h : n < 10000) :
    parse4 (fourDigits n ++ rest) = some (n, rest) := by
  simp only [fourDigits, List.cons_append, List.nil_append, parse4, digitVal_digitChar]
  congr 2
  omega

theorem expect_cons (c : Char) (rest : List Char) : expect c (c :: rest) = some rest := by
  simp [expect]

theorem digitsVal_nineDigits (n : Nat) (h : n < 1000000000) : digitsVal (nineDigits n) = n := by
  simp only [digitsVal, nineDigits, List.foldl_cons, List.foldl_nil, digitVal_digitChar,
    Option.getD_some]
  omega

theorem mem_trimZeros (cs : List Char) (c : Char) (h : c ∈ trimZeros cs) : c ∈ cs := by
  unfold trimZeros at h
  rw [List.mem_reverse] at h
  exact List.mem_reverse.mp ((List.dropWhile_sublist _).subset h)

/-- A digit string is its trimmed form followed by zeros. -/
theorem trimZeros_append (cs : List Char) :
    ∃ k, cs = trimZeros cs ++ List.replicate k '0' := by
  unfold trimZeros
  refine ⟨(cs.reverse.takeWhile (fun c => c == '0')).length, ?_⟩
  have h1 : cs.reverse.takeWhile (fun c => c == '0')
      = List.replicate (cs.reverse.takeWhile (fun c => c == '0')).length '0' := by
    apply List.eq_replicate_of_mem
    intro b hb
    simpa using List.mem_takeWhile_imp hb
  have h2 := List.takeWhile_append_dropWhile (fun c => c == '0') cs.reverse
  have h3 : cs = (cs.reverse.dropWhile (fun c => c == '0')).reverse
      ++ (cs.reverse.takeWhile (fun c => c == '0')).reverse := by
    rw [← List.reverse_append, h2, List.reverse_reverse]
  rw [h1, List.reverse_replicate] at h3
  simpa using h3

theorem nanosOf_trimZeros (cs : List Char) (h : cs.length = 9) :
    nanosOf (trimZeros cs) = digitsVal cs := by
  obtain ⟨k, hk⟩ := trimZeros_append cs
  unfold nanosOf
  congr 1
  have hlen : (trimZeros cs).length + k = 9 := by
    have := congrArg List.length hk
    simp at this
    omega
  have hrep : List.replicate 9 '0' = List.replicate k '0' ++ List.replicate (9 - k) '0' := by
    rw [← List.replicate_add]
    congr 1
    omega
  rw [hrep, ← List.append_assoc, ← hk, List.take_append_of_le_length (by omega)]
  exact List.take_of_length_le (by omega)

theorem takeWhile_append_stop {p : Char → Bool} (l r : List Char) (c : Char)
    (hl : ∀ x ∈ l, p x = true) (hc : p c = false) :
    (l ++ c :: r).takeWhile p = l ∧ (l ++ c :: r).dropWhile p = c :: r := by
  induction l with
  | nil => simp [List.takeWhile, List.dropWhile, hc]
  | cons x xs ih =>
    have hx := hl x (List.mem_cons_self _ _)
    have := ih (fun y hy => hl y (List.mem_cons_of_mem _ hy))
    simp [List.takeWhile, List.dropWhile, hx, this]

theorem zoneChars_head (z : Int) :
    ∃ c rest, zoneChars z = c :: rest ∧ isDigit c = false ∧ c ≠ '.' := by
  unfold zoneChars
  by_cases h0 : z = 0
  · exact ⟨'Z', [], by simp [h0], by decide, by decide⟩
  · by_cases h1 : zoneMinutes z < 0
    · exact ⟨'-', _, by simp only [h0, h1, if_true, if_false]; rfl, by decide, by decide⟩
    · exact ⟨'+', _, by simp only [h0, h1, if_false]; rfl, by decide, by decide⟩

theorem parseFrac_fracChars (n : Nat) (z : Int) (h : n < 1000000000) :
    parseFrac (fracChars n ++ zoneChars z) = (n, zoneChars z) := by
  obtain ⟨c, rest, hz, hc1, hc2⟩ := zoneChars_head z
  rw [hz]
  unfold fracChars
  by_cases h0 : n = 0
  · subst h0
    simp only [if_true, List.nil_append]
    cases rest with
    | nil => rfl
    | cons d rest' => simp [parseFrac, hc2]
  · simp only [h0, if_false, List.cons_append]
    have hdig : ∀ x ∈ trimZeros (nineDigits n), isDigit x = true := by
      intro x hx
      have := mem_trimZeros _ _ hx
      simp only [nineDigits, List.mem_cons, List.mem_singleton, List.not_mem_nil, or_false] at this
      rcases this with h | h | h | h | h | h | h | h | h <;> rw [h] <;> exact isDigit_digitChar _
    have hval := nanosOf_trimZeros (nineDigits n) rfl
    rw [digitsVal_nineDigits n h] at hval
    cases ht : trimZeros (nineDigits n) with
    | nil =>
      rw [ht] at hval
      exact absurd hval.symm (by simpa [nanosOf, digitsVal, digitVal] using h0)
    | cons d tr =>
      have hd : isDigit d = true := hdig d (ht ▸ List.mem_cons_self _ _)
      obtain ⟨h1, h2⟩ := takeWhile_append_stop (p := isDigit) (d :: tr) rest c
        (fun x hx => hdig x (ht ▸ hx)) hc1
      simp only [List.cons_append] at h1 h2
      simp only [parseFrac, List.cons_append, hd, and_true, if_true, h1, h2]
      rw [← ht, hval]

theorem parseZone_signed (s : Char) (hs : s = '+' ∨ s = '-') (h m : Nat)
    (hh : h < 24) (hm : m < 60) :
    parseZone (s :: (twoDigits h ++ ':' :: twoDigits m))
      = some (if s = '-' then -((h * 60 + m : Nat) : Int) else ((h * 60 + m : Nat) : Int)) := by
  have hZ : ¬ s = 'Z' := by rcases hs with h | h <;> rw [h] <;> decide
  have e2 : twoDigits m = twoDigits m ++ [] := by simp
  have hp : parse2 (twoDigits m) = some (m, []) := by
    rw [e2, parse2_twoDigits _ _ (by omega)]
  simp only [parseZone, if_neg hZ, if_pos hs, parse2_twoDigits h _ (by omega : h < 100),
    expect_cons, hp, if_pos (And.intro hh hm)]

theorem parseZone_zoneChars (offset : Int) (h : (zoneMinutes offset).natAbs / 60 < 24) :
    parseZone (zoneChars offset) = some (zoneMinutes offset) := by
  unfold zoneChars
  by_cases h0 : offset = 0
  · subst h0; rfl
  · have hm : (zoneMinutes offset).natAbs % 60 < 60 := by omega
    by_cases hneg : zoneMinutes offset < 0
    · simp only [h0, hneg, if_true, if_false]
      rw [parseZone_signed '-' (Or.inr rfl) _ _ h hm, if_pos rfl]
      congr 1
      omega
    · simp only [h0, hneg, if_false]
      rw [parseZone_signed '+' (Or.inl rfl) _ _ h hm, if_neg (by decide)]
      congr 1
      omega

theorem zoneMinutes_mul (offset : Int) (h : offset % 60 = 0) :
    zoneMinutes offset * 60 = offset := by
  unfold zoneMinutes
  split <;> omega

theorem daysBeforeYear_shift (q r : Nat) :
    daysBeforeYear (400 * q + r) = 146097 * q + daysBeforeYear r := by
  have e4 : (400 * q + r + 3) / 4 = 100 * q + (r + 3) / 4 := by omega
  have e100 : (400 * q + r + 99) / 100 = 4 * q + (r + 99) / 100 := by omega
  have e400 : (400 * q + r + 399) / 400 = q + (r + 399) / 400 := by omega
  have hle : (r + 99) / 100 ≤ (r + 3) / 4 := by omega
  unfold daysBeforeYear
  rw [e4, e100, e400]
  generalize (r + 3) / 4 = a at hle ⊢
  generalize (r + 99) / 100 = b at hle ⊢
  generalize (r + 399) / 400 = c
  omega

theorem isLeap_shift (q r : Nat) : isLeap (400 * q + r) = isLeap r := by
  have m4 : (400 * q + r) % 4 = r % 4 := by omega
  have m100 : (400 * q + r) % 100 = r % 100 := by omega
  have m400 : (400 * q + r) % 400 = r % 400 := by omega
  simp only [isLeap, m4, m100, m400]

set_option maxRecDepth 100000 in
theorem daysBeforeYear_table :
    ∀ r < 400, daysBeforeYear (r + 1) = daysBeforeYear r + 365 + (if isLeap r then 1 else 0) := by
  decide

theorem daysBeforeYear_succ (y : Nat) :
    daysBeforeYear (y + 1) = daysBeforeYear y + 365 + (if isLeap y then 1 else 0) := by
  have hy : y = 400 * (y / 400) + y % 400 := by omega
  have hr : y % 400 < 400 := Nat.mod_lt _ (by decide)
  generalize y / 400 = q at hy
  generalize y % 400 = r at hy hr
  subst hy
  rw [Nat.add_assoc, daysBeforeYear_shift, daysBeforeYear_shift, isLeap_shift,
    daysBeforeYear_table r hr]
  omega

theorem yearFrom_spec (d : Nat) :
    ∀ k, d < daysBeforeYear (k + 1) →
      daysBeforeYear (yearFrom d k) ≤ d ∧ d < daysBeforeYear (yearFrom d k + 1) := by
  intro k
  induction k with
  | zero => intro h; exact ⟨by simp [yearFrom, daysBeforeYear], h⟩
  | succ k ih =>
    intro h
    by_cases hk : daysBeforeYear (k + 1) ≤ d
    · have e : yearFrom d (k + 1) = k + 1 := by simp [yearFrom, hk]
      rw [e]
      exact ⟨hk, h⟩
    · have e : yearFrom d (k + 1) = yearFrom d k := by simp [yearFrom, hk]
      rw [e]
      exact ih (by omega)

theorem yearOf_spec (d : Nat) :
    daysBeforeYear (yearOf d) ≤ d ∧ d < daysBeforeYear (yearOf d + 1) := by
  exact yearFrom_spec d (d / 365) (by unfold daysBeforeYear; omega)

set_option maxRecDepth 100000 in
theorem monthFrom_table :
    ∀ leap : Bool, ∀ doy < 366, doy < 365 + (if leap then 1 else 0) →
      monthFrom leap doy 11 ≤ 11
        ∧ daysBeforeMonth leap (monthFrom leap doy 11) ≤ doy
        ∧ doy < daysBeforeMonth leap (monthFrom leap doy 11 + 1) := by
  decide

theorem monthFrom_spec (leap : Bool) (doy : Nat)
    (h : doy < 365 + (if leap then 1 else 0)) :
    monthFrom leap doy 11 ≤ 11
      ∧ daysBeforeMonth leap (monthFrom leap doy 11) ≤ doy
      ∧ doy < daysBeforeMonth leap (monthFrom leap doy 11 + 1) :=
  monthFrom_table leap doy (by split at h <;> omega) h

theorem daysBeforeMonth_succ_le :
    ∀ leap : Bool, ∀ m < 12, daysBeforeMonth leap (m + 1) ≤ daysBeforeMonth leap m + 31 := by
  decide

/-- What the strict reader reads from the text `MarshalJSON` wrote for an instant
is that instant, when the zone offset is a whole number of minutes. -/
theorem parseRFC3339_format (offset : Int) (t : Time) (s : String) (h60 : offset % 60 = 0)
    (h : formatRFC3339Nano offset t = .ok s) : parseRFC3339 s = some t := by
  unfold formatRFC3339Nano at h
  simp only at h
  have hnsec : ((t + offset * 1000000000) % 1000000000).toNat < 1000000000 := by omega
  have hnsecC : ((((t + offset * 1000000000) % 1000000000).toNat : Nat) : Int)
      = (t + offset * 1000000000) % 1000000000 := Int.toNat_of_nonneg (by omega)
  have hsod : (((t + offset * 1000000000) / 1000000000) % 86400).toNat < 86400 := by omega
  have hsodC : (((((t + offset * 1000000000) / 1000000000) % 86400).toNat : Nat) : Int)
      = ((t + offset * 1000000000) / 1000000000) % 86400 := Int.toNat_of_nonneg (by omega)
  generalize ((t + offset * 1000000000) % 1000000000).toNat = nsec at h hnsec hnsecC
  generalize (((t + offset * 1000000000) / 1000000000) % 86400).toNat = sod at h hsod hsodC
  by_cases hday : (t + offset * 1000000000) / 1000000000 / 86400 + 719528 < 0
  · simp [hday] at h
  · simp only [hday, if_false] at h
    have hdC : ((((t + offset * 1000000000) / 1000000000 / 86400 + 719528).toNat : Nat) : Int)
        = (t + offset * 1000000000) / 1000000000 / 86400 + 719528 :=
      Int.toNat_of_nonneg (not_lt.mp hday)
    generalize ((t + offset * 1000000000) / 1000000000 / 86400 + 719528).toNat = d at h hdC
    obtain ⟨hy1, hy2⟩ := yearOf_spec d
    rw [daysBeforeYear_succ] at hy2
    by_cases hy : 10000 ≤ yearOf d
    · simp [hy] at h
    · simp only [hy, if_false] at h
      by_cases hzone : 24 ≤ (zoneMinutes offset).natAbs / 60
      · simp [hzone] at h
      · simp only [hzone, if_false, Except.ok.injEq] at h
        generalize yearOf d = y at h hy hy1 hy2
        have hdoy : d - daysBeforeYear y < 365 + (if isLeap y then 1 else 0) := by omega
        obtain ⟨hm1, hm2, hm3⟩ := monthFrom_spec (isLeap y) (d - daysBeforeYear y) hdoy
        generalize monthFrom (isLeap y) (d - daysBeforeYear y) 11 = m at h hm1 hm2 hm3
        have hlen := daysBeforeMonth_succ_le (isLeap y) m (by omega)
        subst h
        have p4 := fun rest => parse4_fourDigits y rest (by omega)
        have pm := fun rest => parse2_twoDigits (m + 1) rest (by omega)
        have pd := fun rest => parse2_twoDigits
          (d - daysBeforeYear y - daysBeforeMonth (isLeap y) m + 1) rest (by omega)
        have ph := fun rest => parse2_twoDigits (sod / 3600) rest (by omega)
        have pmi := fun rest => parse2_twoDigits (sod % 3600 / 60) rest (by omega)
        have ps := fun rest => parse2_twoDigits (sod % 60) rest (by omega)
        simp only [parseRFC3339, parseRFC3339Chars, p4, pm, pd, ph, pmi, ps, expect_cons,
          parseFrac_fracChars nsec offset hnsec,
          parseZone_zoneChars offset (Nat.lt_of_not_le hzone)]
        unfold civilTime
        rw [if_pos ⟨by omega, by omega, by omega, by simp only [Nat.add_sub_cancel]; omega,
          by omega, by omega, by omega⟩]
        simp only [Nat.add_sub_cancel, Option.some.injEq]
        have hsum : daysBeforeYear y + daysBeforeMonth (isLeap y) m
            + (d - daysBeforeYear y - daysBeforeMonth (isLeap y) m) = d := by omega
        have hsec : sod / 3600 * 3600 + sod % 3600 / 60 * 60 + sod % 60 = sod := by omega
        rw [hsum, hsec, hdC, hsodC, hnsecC]
        have hz := zoneMinutes_mul offset h60
        have e1 := Int.ediv_add_emod (t + offset * 1000000000) 1000000000
        have e2 := Int.ediv_add_emod ((t + offset * 1000000000) / 1000000000) 86400
        generalize (t + offset * 1000000000) % 1000000000 = r1 at e1 ⊢
        generalize (t + offset * 1000000000) / 1000000000 % 86400 = r2 at e2 ⊢
        generalize (t + offset * 1000000000) / 1000000000 / 86400 = q2 at e2 ⊢
        generalize (t + offset * 1000000000) / 1000000000 = q1 at e1 e2 ⊢
        generalize zoneMinutes offset = zm at hz ⊢
        linarith

theorem daysBeforeYear_mono (a b : Nat) (h : a ≤ b) : daysBeforeYear a ≤ daysBeforeYear b := by
  induction b with
  | zero =>
    have : a = 0 := by omega
    subst this; exact Nat.le_refl _
  | succ k ih =>
    by_cases hk : a ≤ k
    · have := ih hk
      rw [daysBeforeYear_succ]
      omega
    · have : a = k + 1 := by omega
      subst this; exact Nat.le_refl _

/-- The encoding of an instant that fits 64-bit nanoseconds succeeds in every
zone of less than a day. -/
theorem formatRFC3339Nano_ok (offset : Int) (t : Int) (ht : inInt64 t = true)
    (h1 : -86400 < offset) (h2 : offset < 86400) :
    ∃ s, formatRFC3339Nano offset t = .ok s := by
  simp only [inInt64, decide_eq_true_eq] at ht
  have ht1 : (-9223372036854775808 : Int) ≤ t := ht.1
  have ht2 : t < (9223372036854775808 : Int) := ht.2
  unfold formatRFC3339Nano
  simp only
  have hday : ¬ (t + offset * 1000000000) / 1000000000 / 86400 + 719528 < 0 := by omega
  have hdle : ((t + offset * 1000000000) / 1000000000 / 86400 + 719528).toNat ≤ 1000000 := by
    omega
  generalize ((t + offset * 1000000000) / 1000000000 / 86400 + 719528).toNat = d at hdle
  have hy : ¬ 10000 ≤ yearOf d := by
    intro hy
    have h3 := daysBeforeYear_mono _ _ hy
    have h4 := (yearOf_spec d).1
    have h5 : daysBeforeYear 10000 = 3652425 := by decide
    omega
  have hz : ¬ 24 ≤ (zoneMinutes offset).natAbs / 60 := by
    unfold zoneMinutes
    split <;> omega
  simp only [hday, hy, hz, if_false]
  exact ⟨_, rfl⟩

/-! ## Lemmas on the tree -/

theorem findEntry_modifyEntry (c c' : String) (f : Node → Node) (es : List (String × Node)) :
    findEntry c' (modifyEntry c f es)
      = if c' = c then (findEntry c' es).map f else findEntry c' es := by
  induction es with
  | nil => simp [findEntry, modifyEntry]
  | cons e rest ih =>
    obtain ⟨name, n⟩ := e
    by_cases h1 : name = c
    · by_cases h2 : c' = c
      · subst h1; subst h2; simp [findEntry, modifyEntry]
      · subst h1
        have h3 : ¬ name = c' := fun h => h2 h.symm
        simp [findEntry, modifyEntry, h2, h3]
    · by_cases h2 : name = c'
      · subst h2
        simp [findEntry, modifyEntry, h1]
      · simp [findEntry, modifyEntry, h1, h2, ih]

theorem Node.shallow_mapAttr (f : Attr → Attr) (n : Node) :
    (n.mapAttr f).shallow = (n.kind, f n.attr) := by
  cases n <;> rfl

theorem Node.lookup_mapAttr_cons (f : Attr → Attr) (n : Node) (c : String) (cs : List String) :
    (n.mapAttr f).lookup (c :: cs) = n.lookup (c :: cs) := by
  cases n <;> simp [Node.mapAttr, Node.lookup]

/-- Changing the attributes at `p` changes what is seen at `p`, and only there. -/
theorem Node.lookup_modifyAt (f : Attr → Attr) :
    ∀ (p q : List String) (n : Node),
      ((n.modifyAt f p).lookup q).map Node.shallow
        = if q = p then (n.lookup q).map (fun x => (x.kind, f x.attr))
          else (n.lookup q).map Node.shallow := by
  intro p
  induction p with
  | nil =>
    intro q n
    cases q with
    | nil => simp [Node.modifyAt, Node.lookup, Node.shallow_mapAttr]
    | cons c cs => simp [Node.modifyAt, Node.lookup_mapAttr_cons]
  | cons c cs ih =>
    intro q n
    cases n with
    | file x => cases q <;> simp [Node.modifyAt, Node.lookup]
    | symlink x => cases q <;> simp [Node.modifyAt, Node.lookup]
    | dir x es =>
      cases q with
      | nil => simp [Node.modifyAt, Node.lookup, Node.shallow, Node.kind, Node.attr]
      | cons c' cs' =>
        simp only [Node.modifyAt, Node.lookup, findEntry_modifyEntry]
        by_cases hc : c' = c
        · subst hc
          cases hf : findEntry c' es with
          | none => simp
          | some ch =>
            have := ih cs' ch
            simp only [if_true, Option.map_some', List.cons.injEq, true_and]
            exact this
        · simp [hc]

theorem FS.info_modify (fs : FS) (f : Attr → Attr) (p q : List String) :
    (fs.modify f p).info q
      = if q = p then (fs.info q).map (fun x => (x.1, f x.2)) else fs.info q := by
  unfold FS.modify FS.info
  simp only [Node.lookup_modifyAt]
  split
  · simp [Node.shallow, Function.comp_def]
  · rfl

theorem FS.info_next (fs : FS) (q : List String) : fs.next.info q = fs.info q := rfl

theorem FS.timesAt_eq (fs : FS) (loc : List String) :
    fs.timesAt loc = (fs.info loc).map (fun x => (x.2.mtime, x.2.atime)) := by
  unfold FS.timesAt FS.info
  cases fs.root.lookup loc <;> simp [Node.shallow]

theorem FS.mtimeAt_eq (fs : FS) (loc : List String) :
    fs.mtimeAt loc = (fs.info loc).map (fun x => x.2.mtime) := by
  unfold FS.mtimeAt FS.info
  cases fs.root.lookup loc <;> simp [Node.shallow]

theorem FS.mtimeAt_timesAt (fs : FS) (loc : List String) :
    fs.mtimeAt loc = (fs.timesAt loc).map Prod.fst := by
  unfold FS.mtimeAt FS.timesAt
  cases fs.root.lookup loc <;> simp

theorem FS.sameFiles_refl (fs : FS) : fs.SameFiles fs := ⟨rfl, fun _ => rfl⟩

theorem FS.sameFiles_trans {a b c : FS} (h1 : a.SameFiles b) (h2 : b.SameFiles c) :
    a.SameFiles c :=
  ⟨h1.1.trans h2.1, fun loc => (h1.2 loc).trans (h2.2 loc)⟩

theorem FS.sameFiles_symm {a b : FS} (h : a.SameFiles b) : b.SameFiles a :=
  ⟨h.1.symm, fun loc => (h.2 loc).symm⟩

theorem FS.sameButAtime_refl (fs : FS) : fs.SameButAtime fs := ⟨rfl, fun _ => rfl⟩

theorem FS.sameButAtime_trans {a b c : FS} (h1 : a.SameButAtime b) (h2 : b.SameButAtime c) :
    a.SameButAtime c :=
  ⟨h1.1.trans h2.1, fun loc => (h1.2 loc).trans (h2.2 loc)⟩

/-- A change of attributes that keeps everything but the timestamps keeps the files. -/
theorem FS.sameFiles_modify (fs : FS) (f : Attr → Attr) (p : List String)
    (hf : ∀ x, (f x).fixed = x.fixed) : fs.SameFiles (fs.modify f p) := by
  refine ⟨rfl, fun loc => ?_⟩
  rw [FS.info_modify]
  split
  · cases fs.info loc <;> simp [hf]
  · rfl

theorem FS.sameButAtime_modify (fs : FS) (f : Attr → Attr) (p : List String)
    (hf : ∀ x, (f x).noAtime = x.noAtime) : fs.SameButAtime (fs.modify f p) := by
  refine ⟨rfl, fun loc => ?_⟩
  rw [FS.info_modify]
  split
  · cases fs.info loc <;> simp [hf]
  · rfl

theorem FS.sameFiles_next (fs : FS) : fs.SameFiles fs.next := ⟨rfl, fun _ => rfl⟩

theorem FS.sameButAtime_next (fs : FS) : fs.SameButAtime fs.next := ⟨rfl, fun _ => rfl⟩

/-! ## Lemmas on the loop of the restorer -/

namespace Restore

theorem effect_fixed (env : Env) (k : Nat) (v : Option Time) (x : Attr) :
    (effect env k v x).fixed = x.fixed := by
  cases v <;> rfl

theorem effect_mtime (env : Env) (k : Nat) (v : Option Time) (x : Attr) :
    (effect env k v x).mtime
      = match v with
        | some t => chtime env.storedMtime t x.mtime
        | none => x.mtime := by
  cases v <;> rfl

theorem verdict_congr (env : Env) (rootDir : Path) (fs fs' : FS) (h : fs.SameFiles fs')
    (x : FileInfo) : verdict env rootDir fs' x = verdict env rootDir fs x := by
  unfold verdict
  rw [← h.1]
  have := h.2 (target fs.cwd rootDir x)
  cases h1 : fs.info (target fs.cwd rootDir x) with
  | none =>
    cases h2 : fs'.info (target fs.cwd rootDir x) with
    | none => rfl
    | some b => rw [h1, h2] at this; cases this
  | some a =>
    cases h2 : fs'.info (target fs.cwd rootDir x) with
    | none => rw [h1, h2] at this; cases this
    | some b =>
      rw [h1, h2] at this
      obtain ⟨ka, a⟩ := a
      obtain ⟨kb, b⟩ := b
      simp only [Option.map_some', Option.some.injEq, Prod.mk.injEq, Attr.fixed,
        Attr.mk.injEq, true_and] at this
      obtain ⟨hk, hc, hr, hs, _, _⟩ := this
      subst hk
      cases ka <;> simp [hc, hr, hs]

theorem reads_congr (rootDir : Path) (fs fs' : FS) (h : fs.SameFiles fs')
    (x : FileInfo) : reads rootDir fs' x = reads rootDir fs x := by
  unfold reads
  rw [← h.1]
  have := h.2 (target fs.cwd rootDir x)
  cases h1 : fs.info (target fs.cwd rootDir x) with
  | none =>
    cases h2 : fs'.info (target fs.cwd rootDir x) with
    | none => rfl
    | some b => rw [h1, h2] at this; cases this
  | some a =>
    cases h2 : fs'.info (target fs.cwd rootDir x) with
    | none => rw [h1, h2] at this; cases this
    | some b =>
      rw [h1, h2] at this
      obtain ⟨ka, a⟩ := a
      obtain ⟨kb, b⟩ := b
      simp only [Option.map_some', Option.some.injEq, Prod.mk.injEq, Attr.fixed,
        Attr.mk.injEq, true_and] at this
      obtain ⟨hk, _, hr, _, _, _⟩ := this
      subst hk
      cases ka <;> simp [hr]

theorem written_congr (env : Env) (rootDir : Path) (fs fs' : FS) (h : fs.SameFiles fs')
    (x : FileInfo) : written env rootDir fs' x = written env rootDir fs x := by
  unfold written
  rw [verdict_congr env rootDir fs fs' h]

theorem verdict_reads (env : Env) (rootDir : Path) (fs : FS) (x : FileInfo) (t : Time)
    (h : verdict env rootDir fs x = some t) : reads rootDir fs x = true := by
  unfold verdict at h
  unfold reads
  by_cases he : (Join rootDir x.Path).isEmpty = true
  · simp [he] at h
  · simp only [he, if_false, Bool.false_eq_true] at h
    cases hi : fs.info (target fs.cwd rootDir x) with
    | none => simp [hi] at h
    | some y =>
      obtain ⟨k, a⟩ := y
      cases k with
      | regular =>
        simp only [hi] at h
        by_cases hr : a.readable = true
        · simp [he, hr]
        · simp [hr] at h
      | symlink => simp [hi] at h
      | directory => simp [hi] at h

theorem effect_zero (env : Env) (k : Nat) (x : Attr) :
    effect env k (some zeroTime) x = x.afterRead env k := by
  simp [effect, Attr.chtimes, chtime]

/-- The state the loop body leaves, location by location. -/
theorem after_info (env : Env) (rootDir : Path) (fs : FS) (x : FileInfo) (q : List String) :
    (after env rootDir fs x).info q
      = if reads rootDir fs x = true ∧ q = target fs.cwd rootDir x then
          (fs.info q).map (fun y => (y.1, effect env fs.tick (verdict env rootDir fs x) y.2))
        else fs.info q := by
  unfold after
  by_cases hr : reads rootDir fs x = true
  · simp only [hr, if_true, true_and]
    cases hv : verdict env rootDir fs x with
    | none =>
      simp only [FS.info_next, FS.info_modify, effect]
    | some t =>
      by_cases hz : t = zeroTime
      · subst hz
        simp only [if_true, FS.info_next, FS.info_modify, effect_zero]
      · simp only [hz, if_false, FS.info_modify, FS.info_next, effect]
        split
        · cases fs.info q <;> simp
        · rfl
  · simp [hr]

theorem after_cwd (env : Env) (rootDir : Path) (fs : FS) (x : FileInfo) :
    (after env rootDir fs x).cwd = fs.cwd := by
  unfold after
  split
  · split
    · split <;> rfl
    · rfl
  · rfl

theorem after_same (env : Env) (rootDir : Path) (fs : FS) (x : FileInfo) :
    fs.SameFiles (after env rootDir fs x) := by
  refine ⟨(after_cwd env rootDir fs x).symm, fun loc => ?_⟩
  rw [after_info]
  split
  · cases fs.info loc <;> simp [effect_fixed]
  · rfl

/-- The loop body in closed form. -/
theorem loopBody_eq (env : Env) (rootDir : Path) (s : LoopState) (x : FileInfo) :
    loopBody env rootDir s x
      = { fs := after env rootDir s.fs x,
          updated := s.updated + (if (verdict env rootDir s.fs x).isSome then 1 else 0) } := by
  unfold loopBody after verdict reads hash_file os_Chtimes os_Stat os_Lstat target
  by_cases he : (Join rootDir x.Path).isEmpty = true
  · simp [he]
  · simp only [he, if_false, Bool.false_eq_true, Bool.not_false, Bool.true_and]
    cases hl : s.fs.root.lookup (locate s.fs.cwd (Join rootDir x.Path)) with
    | none => simp [FS.info, hl]
    | some n =>
      cases n with
      | symlink a => simp [FS.info, hl, Node.shallow, Node.kind]
      | dir a es => simp [FS.info, hl, Node.shallow, Node.kind]
      | file a =>
        have hl1 : ((s.fs.modify (Attr.afterRead env s.fs.tick)
            (locate s.fs.cwd (Join rootDir x.Path))).next.root.lookup
              (locate s.fs.cwd (Join rootDir x.Path))).map Node.shallow
            = some (Kind.regular, Attr.afterRead env s.fs.tick a) := by
          have := FS.info_modify s.fs (Attr.afterRead env s.fs.tick)
            (locate s.fs.cwd (Join rootDir x.Path)) (locate s.fs.cwd (Join rootDir x.Path))
          simp only [FS.info, hl, if_true, Option.map_some', Node.shallow, Node.kind,
            Node.attr] at this
          exact this
        simp only [FS.info, hl, Option.map_some', Node.shallow, Node.kind, Node.attr]
        by_cases hr : a.readable = true
        · simp only [hr, if_true]
          by_cases hh : env.sha256hex a.content = x.Hash
          · cases hp : time_Parse env x.ModTime with
            | none => simp [hh]
            | some t =>
              by_cases hz : t = zeroTime
              · simp [hh, hz]
              · cases hn : (s.fs.modify (Attr.afterRead env s.fs.tick)
                  (locate s.fs.cwd (Join rootDir x.Path))).next.root.lookup
                    (locate s.fs.cwd (Join rootDir x.Path)) with
                | none => rw [hn] at hl1; cases hl1
                | some n1 =>
                  rw [hn] at hl1
                  simp only [Option.map_some', Option.some.injEq, Node.shallow,
                    Prod.mk.injEq] at hl1
                  obtain ⟨hk, ha⟩ := hl1
                  have hcwd : (s.fs.modify (Attr.afterRead env s.fs.tick)
                      (locate s.fs.cwd (Join rootDir x.Path))).next.cwd = s.fs.cwd := rfl
                  have hset : n1.attr.settable = a.settable := by rw [ha]; rfl
                  cases n1 with
                  | symlink b => cases hk
                  | dir b es => cases hk
                  | file b =>
                    simp only [Node.attr] at hset
                    by_cases hs : a.settable = true
                    · simp [hh, hcwd, hn, hset, hs, he, hz]
                    · simp [hh, hcwd, hn, hset, hs, he, hz]
          · simp [hh]
        · simp [hr]

theorem counted_eq (env : Env) (rootDir : Path) (fs : FS) (x : FileInfo) :
    counted env rootDir fs x = (verdict env rootDir fs x).isSome := by
  unfold counted verdict hash_file os_Chtimes os_Stat os_Lstat FS.info target
  by_cases he : (Join rootDir x.Path).isEmpty = true
  · simp [he]
  · simp only [he, if_false, Bool.false_eq_true]
    cases hl : fs.root.lookup (locate fs.cwd (Join rootDir x.Path)) with
    | none => simp
    | some n =>
      cases n with
      | symlink a => simp [Node.shallow, Node.kind]
      | dir a es => simp [Node.shallow, Node.kind]
      | file a =>
        simp only [Option.map_some', Node.shallow, Node.kind, Node.attr]
        by_cases hr : a.readable = true
        · by_cases hh : env.sha256hex a.content = x.Hash
          · cases hp : time_Parse env x.ModTime with
            | none => simp [hr, hh]
            | some t =>
              by_cases hz : t = zeroTime
              · simp [hr, hh, hz, Except.toBool]
              · by_cases hs : a.settable = true
                · simp [hr, hh, hs, hz, Except.toBool]
                · simp [hr, hh, hs, hz, Except.toBool]
          · simp [hr, hh]
        · simp [hr]

end Restore

namespace Restore

/-- What the loop body does to an observation `proj` of the attributes that a
read leaves alone and that `os.Chtimes` sets to `new t` for a time `t` other
than the zero time. -/
theorem after_obs {β : Type} (env : Env) (rootDir : Path) (proj : Attr → β) (new : Time → β)
    (hstep : ∀ k v x, proj (effect env k v x)
      = match v with
        | some t => if t = zeroTime then proj x else new t
        | none => proj x)
    (fs : FS) (x : FileInfo) (q : List String) :
    ((after env rootDir fs x).info q).map (fun y => proj y.2)
      = match (if target fs.cwd rootDir x = q then written env rootDir fs x else none) with
        | some w => (fs.info q).map (fun _ => new w)
        | none => (fs.info q).map (fun y => proj y.2) := by
  rw [after_info]
  by_cases hq : target fs.cwd rootDir x = q
  · subst hq
    simp only [and_true, if_true]
    by_cases hr : reads rootDir fs x = true
    · simp only [hr, if_true, written]
      cases hv : verdict env rootDir fs x with
      | none => cases fs.info (target fs.cwd rootDir x) <;> simp [hstep]
      | some t =>
        by_cases hz : t = zeroTime
        · cases fs.info (target fs.cwd rootDir x) <;> simp [hstep, hz]
        · cases fs.info (target fs.cwd rootDir x) <;> simp [hstep, hz]
    · have hv : verdict env rootDir fs x = none := by
        cases hv : verdict env rootDir fs x with
        | none => rfl
        | some t => exact absurd (verdict_reads env rootDir fs x t hv) hr
      simp [hr, written, hv]
  · have hq' : ¬ q = target fs.cwd rootDir x := fun h => hq h.symm
    simp [hq, hq']

theorem loopBody_same (env : Env) (rootDir : Path) (s : LoopState) (x : FileInfo) :
    s.fs.SameFiles (loopBody env rootDir s x).fs := by
  rw [loopBody_eq]
  exact after_same env rootDir s.fs x

theorem run_same (env : Env) (rootDir : Path) :
    ∀ (m : List FileInfo) (s : LoopState), s.fs.SameFiles (run env rootDir m s).fs := by
  intro m
  induction m with
  | nil => intro s; exact FS.sameFiles_refl _
  | cons x rest ih =>
    intro s
    exact FS.sameFiles_trans (loopBody_same env rootDir s x) (ih _)

theorem lastWritten_congr (env : Env) (rootDir : Path) (fs fs' : FS) (loc : List String)
    (h : fs.SameFiles fs') :
    ∀ m : List FileInfo,
      lastWritten env rootDir fs' loc m = lastWritten env rootDir fs loc m := by
  intro m
  induction m with
  | nil => rfl
  | cons x rest ih => simp only [lastWritten, ih, ← h.1, written_congr env rootDir fs fs' h]

/-- The counter after the loop: one more for every entry that is not skipped. -/
theorem run_updated (env : Env) (rootDir : Path) :
    ∀ (m : List FileInfo) (s : LoopState),
      (run env rootDir m s).updated
        = s.updated + m.countP (fun x => (verdict env rootDir s.fs x).isSome) := by
  intro m
  induction m with
  | nil => intro s; simp [run]
  | cons y rest ih =>
    intro s
    simp only [run, List.foldl_cons] at ih ⊢
    rw [ih]
    have hv : (fun x => (verdict env rootDir (loopBody env rootDir s y).fs x).isSome)
        = (fun x => (verdict env rootDir s.fs x).isSome) := by
      funext x; rw [verdict_congr env rootDir s.fs _ (loopBody_same env rootDir s y)]
    rw [hv, List.countP_cons, loopBody_eq]
    cases verdict env rootDir s.fs y with
    | none => simp
    | some t => simp; omega

/-- The observation `proj` after the loop, location by location. -/
theorem run_obs {β : Type} (env : Env) (rootDir : Path) (proj : Attr → β) (new : Time → β)
    (hstep : ∀ k v x, proj (effect env k v x)
      = match v with
        | some t => if t = zeroTime then proj x else new t
        | none => proj x) :
    ∀ (m : List FileInfo) (s : LoopState) (loc : List String),
      ((run env rootDir m s).fs.info loc).map (fun y => proj y.2)
        = match lastWritten env rootDir s.fs loc m with
          | some w => (s.fs.info loc).map (fun _ => new w)
          | none => (s.fs.info loc).map (fun y => proj y.2) := by
  intro m
  induction m with
  | nil => intro s loc; simp [run, lastWritten]
  | cons y rest ih =>
    intro s loc
    simp only [run, List.foldl_cons] at ih ⊢
    rw [ih, lastWritten_congr env rootDir s.fs _ loc (loopBody_same env rootDir s y)]
    simp only [lastWritten]
    rw [loopBody_eq]
    cases hl : lastWritten env rootDir s.fs loc rest with
    | some w =>
      simp only
      rw [after_info]
      split <;> cases s.fs.info loc <;> simp
    | none =>
      simp only
      exact after_obs env rootDir proj new hstep s.fs y loc

/-- Entries that do not read the file at a location leave it as it is. -/
theorem run_info_unread (env : Env) (rootDir : Path) (loc : List String) :
    ∀ (m : List FileInfo) (s : LoopState),
      (∀ x ∈ m, target s.fs.cwd rootDir x = loc → reads rootDir s.fs x = false) →
      (run env rootDir m s).fs.info loc = s.fs.info loc := by
  intro m
  induction m with
  | nil => intro s _; rfl
  | cons y rest ih =>
    intro s h
    simp only [run, List.foldl_cons] at ih ⊢
    have hs := loopBody_same env rootDir s y
    rw [ih]
    · rw [loopBody_eq, after_info]
      by_cases hq : loc = target s.fs.cwd rootDir y
      · have := h y (List.mem_cons_self _ _) hq.symm
        simp [this]
      · simp [hq]
    · intro x hx hxl
      rw [← hs.1] at hxl
      rw [reads_congr rootDir s.fs _ hs]
      exact h x (List.mem_cons_of_mem _ hx) hxl

/-- When no two entries are aimed at the same file, the target of an entry is
changed by that entry alone. -/
theorem run_info_single (env : Env) (rootDir : Path) :
    ∀ (m : List FileInfo) (s : LoopState) (e : FileInfo),
      (m.map (target s.fs.cwd rootDir)).Nodup → e ∈ m →
      ∃ k, (run env rootDir m s).fs.info (target s.fs.cwd rootDir e)
        = if reads rootDir s.fs e = true then
            (s.fs.info (target s.fs.cwd rootDir e)).map
              (fun y => (y.1, effect env k (verdict env rootDir s.fs e) y.2))
          else s.fs.info (target s.fs.cwd rootDir e) := by
  intro m
  induction m with
  | nil => intro s e _ he; cases he
  | cons y rest ih =>
    intro s e hnd he
    simp only [List.map_cons, List.nodup_cons] at hnd
    obtain ⟨hy, hrest⟩ := hnd
    have hs := loopBody_same env rootDir s y
    simp only [run, List.foldl_cons] at ih ⊢
    rcases List.mem_cons.mp he with heq | hmem
    · subst heq
      refine ⟨s.fs.tick, ?_⟩
      have hun := run_info_unread env rootDir (target s.fs.cwd rootDir e) rest
        (loopBody env rootDir s e) (by
          intro x hx hxl
          rw [← hs.1] at hxl
          exact absurd (hxl ▸ List.mem_map_of_mem _ hx) hy)
      simp only [run] at hun
      rw [hun, loopBody_eq, after_info]
      simp
    · have hne : target s.fs.cwd rootDir y ≠ target s.fs.cwd rootDir e :=
        fun h => hy (h ▸ List.mem_map_of_mem _ hmem)
      obtain ⟨k, hk⟩ := ih (loopBody env rootDir s y) e (by rw [← hs.1]; exact hrest) hmem
      refine ⟨k, ?_⟩
      rw [← hs.1, reads_congr rootDir s.fs _ hs, verdict_congr env rootDir s.fs _ hs] at hk
      rw [hk, loopBody_eq, after_info]
      have hne' : ¬ target s.fs.cwd rootDir e = target s.fs.cwd rootDir y := fun h => hne h.symm
      simp [hne']

theorem lastWritten_none (env : Env) (rootDir : Path) (fs : FS) (loc : List String) :
    ∀ m : List FileInfo,
      (∀ x ∈ m, target fs.cwd rootDir x = loc → written env rootDir fs x = none) →
      lastWritten env rootDir fs loc m = none := by
  intro m
  induction m with
  | nil => intro _; rfl
  | cons y rest ih =>
    intro h
    have h1 := ih (fun x hx => h x (List.mem_cons_of_mem _ hx))
    simp only [lastWritten, h1]
    by_cases hq : target fs.cwd rootDir y = loc
    · simp [hq, h y (List.mem_cons_self _ _) hq]
    · simp [hq]

/-- When no two entries are aimed at the same file, the time written at the
target of an entry is the one of that entry. -/
theorem lastWritten_of_mem (env : Env) (rootDir : Path) (fs : FS) :
    ∀ (m : List FileInfo) (e : FileInfo),
      (m.map (target fs.cwd rootDir)).Nodup → e ∈ m →
      lastWritten env rootDir fs (target fs.cwd rootDir e) m = written env rootDir fs e := by
  intro m
  induction m with
  | nil => intro e _ he; cases he
  | cons y rest ih =>
    intro e hnd he
    simp only [List.map_cons, List.nodup_cons] at hnd
    obtain ⟨hy, hrest⟩ := hnd
    rcases List.mem_cons.mp he with heq | hmem
    · subst heq
      have hn : lastWritten env rootDir fs (target fs.cwd rootDir e) rest = none := by
        apply lastWritten_none
        intro x hx hxe
        exact absurd (hxe ▸ List.mem_map_of_mem _ hx) hy
      simp [lastWritten, hn]
    · have h1 := ih e hrest hmem
      have hne : target fs.cwd rootDir y ≠ target fs.cwd rootDir e :=
        fun h => hy (h ▸ List.mem_map_of_mem _ hmem)
      simp only [lastWritten, h1]
      cases hv : written env rootDir fs e with
      | some t => rfl
      | none => simp [hne]

theorem lastWritten_some (env : Env) (rootDir : Path) (fs : FS) (loc : List String)
    (t : Time) :
    ∀ m : List FileInfo, lastWritten env rootDir fs loc m = some t →
      ∃ x ∈ m, target fs.cwd rootDir x = loc ∧ written env rootDir fs x = some t := by
  intro m
  induction m with
  | nil => intro h; cases h
  | cons y rest ih =>
    intro h
    simp only [lastWritten] at h
    cases hl : lastWritten env rootDir fs loc rest with
    | some t' =>
      rw [hl] at h
      simp only [Option.some.injEq] at h
      subst h
      obtain ⟨x, hx, h1, h2⟩ := ih hl
      exact ⟨x, List.mem_cons_of_mem _ hx, h1, h2⟩
    | none =>
      rw [hl] at h
      by_cases hq : target fs.cwd rootDir y = loc
      · simp only [hq, if_true] at h
        exact ⟨y, List.mem_cons_self _ _, hq, h⟩
      · simp [hq] at h

/-- For entries aimed at pairwise distinct files the written times do not depend
on the order of the entries. -/
theorem lastWritten_perm (env : Env) (rootDir : Path) (fs : FS) (loc : List String)
    (m m' : List FileInfo) (hp : m.Perm m') (hnd : (m.map (target fs.cwd rootDir)).Nodup) :
    lastWritten env rootDir fs loc m' = lastWritten env rootDir fs loc m := by
  have hnd' : (m'.map (target fs.cwd rootDir)).Nodup :=
    (List.Perm.nodup_iff (hp.map _)).mp hnd
  apply Option.ext
  intro t
  constructor
  · intro h
    obtain ⟨x, hx, h1, h2⟩ := lastWritten_some env rootDir fs loc t m' h
    have := lastWritten_of_mem env rootDir fs m x hnd (hp.mem_iff.mpr hx)
    rw [h1, h2] at this
    exact this
  · intro h
    obtain ⟨x, hx, h1, h2⟩ := lastWritten_some env rootDir fs loc t m h
    have := lastWritten_of_mem env rootDir fs m' x hnd' (hp.mem_iff.mp hx)
    rw [h1, h2] at this
    exact this

theorem main_fs (env : Env) (rootDir : Path) (m : List FileInfo) (fs : FS) :
    (main env rootDir m fs).fs = (run env rootDir m { fs := fs, updated := 0 }).fs := rfl

theorem main_same (env : Env) (rootDir : Path) (m : List FileInfo) (fs : FS) :
    fs.SameFiles (main env rootDir m fs).fs :=
  run_same env rootDir m { fs := fs, updated := 0 }

theorem main_updated (env : Env) (rootDir : Path) (m : List FileInfo) (fs : FS) :
    (main env rootDir m fs).updated
      = m.countP (fun x => (verdict env rootDir fs x).isSome) := by
  show (run env rootDir m { fs := fs, updated := 0 }).updated = _
  rw [run_updated]; simp

theorem effect_mtime_step (env : Env) (k : Nat) (v : Option Time) (x : Attr) :
    (effect env k v x).mtime
      = match v with
        | some t => if t = zeroTime then x.mtime else env.storedMtime (wrap64 t)
        | none => x.mtime := by
  cases v with
  | none => rfl
  | some t => simp only [effect, Attr.chtimes, Attr.afterRead, chtime]

theorem effect_times_step (env : Env) (hq : ∀ k x, env.atimeOnRead k x = x.atime) (k : Nat)
    (v : Option Time) (x : Attr) :
    ((effect env k v x).mtime, (effect env k v x).atime)
      = match v with
        | some t =>
          if t = zeroTime then (x.mtime, x.atime)
          else (env.storedMtime (wrap64 t), env.storedAtime (wrap64 t))
        | none => (x.mtime, x.atime) := by
  cases v with
  | none => simp only [effect, Attr.afterRead, hq]
  | some t =>
    simp only [effect, Attr.chtimes, Attr.afterRead, chtime, hq]
    split <;> rfl

/-- The modification times `main` leaves, location by location. -/
theorem main_mtime (env : Env) (rootDir : Path) (m : List FileInfo) (fs : FS)
    (loc : List String) :
    (main env rootDir m fs).fs.mtimeAt loc
      = match lastWritten env rootDir fs loc m with
        | some w => (fs.mtimeAt loc).map (fun _ => env.storedMtime (wrap64 w))
        | none => fs.mtimeAt loc := by
  rw [main_fs, FS.mtimeAt_eq, FS.mtimeAt_eq]
  have h := run_obs env rootDir Attr.mtime (fun t => env.storedMtime (wrap64 t))
    (effect_mtime_step env) m { fs := fs, updated := 0 } loc
  rw [h]
  cases lastWritten env rootDir fs loc m with
  | none => rfl
  | some w => cases fs.info loc <;> rfl

/-- The timestamps `main` leaves, location by location, when reads do not move
access times. -/
theorem main_times (env : Env) (hq : ∀ k x, env.atimeOnRead k x = x.atime) (rootDir : Path)
    (m : List FileInfo) (fs : FS) (loc : List String) :
    (main env rootDir m fs).fs.timesAt loc
      = match lastWritten env rootDir fs loc m with
        | some w => (fs.timesAt loc).map
            (fun _ => (env.storedMtime (wrap64 w), env.storedAtime (wrap64 w)))
        | none => fs.timesAt loc := by
  rw [main_fs, FS.timesAt_eq, FS.timesAt_eq]
  have h := run_obs env rootDir (fun x => (x.mtime, x.atime))
    (fun t => (env.storedMtime (wrap64 t), env.storedAtime (wrap64 t)))
    (effect_times_step env hq) m { fs := fs, updated := 0 } loc
  rw [h]
  cases lastWritten env rootDir fs loc m with
  | none => rfl
  | some w => cases fs.info loc <;> rfl

/-- The target of an entry after `main`, when no two entries are aimed at one file. -/
theorem main_info_single (env : Env) (rootDir : Path) (m : List FileInfo) (fs : FS)
    (e : FileInfo) (hnd : (m.map (target fs.cwd rootDir)).Nodup) (he : e ∈ m) :
    ∃ k, (main env rootDir m fs).fs.info (target fs.cwd rootDir e)
      = if reads rootDir fs e = true then
          (fs.info (target fs.cwd rootDir e)).map
            (fun y => (y.1, effect env k (verdict env rootDir fs e) y.2))
        else fs.info (target fs.cwd rootDir e) :=
  run_info_single env rootDir m { fs := fs, updated := 0 } e hnd he

theorem main_info_unread (env : Env) (rootDir : Path) (m : List FileInfo) (fs : FS)
    (loc : List String)
    (h : ∀ x ∈ m, target fs.cwd rootDir x = loc → reads rootDir fs x = false) :
    (main env rootDir m fs).fs.info loc = fs.info loc :=
  run_info_unread env rootDir loc m { fs := fs, updated := 0 } h

theorem verdict_directory (env : Env) (rootDir : Path) (fs : FS) (x : FileInfo) (a : Attr)
    (h : fs.info (target fs.cwd rootDir x) = some (Kind.directory, a)) :
    verdict env rootDir fs x = none ∧ reads rootDir fs x = false := by
  unfold verdict reads
  rw [h]
  simp

theorem wrap64_of_inInt64 (t : Int) (h : inInt64 t = true) : wrap64 t = t := by
  simp only [inInt64, decide_eq_true_eq] at h
  have h1 : (-9223372036854775808 : Int) ≤ t := h.1
  have h2 : t < (9223372036854775808 : Int) := h.2
  show (t + 9223372036854775808) % 18446744073709551616 - 9223372036854775808 = t
  rw [Int.emod_eq_of_lt (by omega) (by omega)]
  omega

theorem zeroTime_not_inInt64 : inInt64 zeroTime = false := by decide

theorem verdict_info (env : Env) (rootDir : Path) (fs : FS) (x : FileInfo) (t : Time)
    (h : verdict env rootDir fs x = some t) :
    ∃ a, fs.info (target fs.cwd rootDir x) = some (Kind.regular, a)
      ∧ time_Parse env x.ModTime = some t := by
  unfold verdict at h
  by_cases he : (Join rootDir x.Path).isEmpty = true
  · simp [he] at h
  · simp only [he, if_false, Bool.false_eq_true] at h
    cases hi : fs.info (target fs.cwd rootDir x) with
    | none => simp [hi] at h
    | some y =>
      obtain ⟨k, a⟩ := y
      cases k with
      | regular =>
        refine ⟨a, rfl, ?_⟩
        simp only [hi] at h
        split at h
        · cases hp : time_Parse env x.ModTime with
          | none => rw [hp] at h; cases h
          | some t' =>
            rw [hp] at h
            simp only at h
            split at h
            · exact h
            · cases h
        · cases h
      | symlink => simp [hi] at h
      | directory => simp [hi] at h

theorem reads_info (rootDir : Path) (fs : FS) (x : FileInfo)
    (h : reads rootDir fs x = true) :
    ∃ a, fs.info (target fs.cwd rootDir x) = some (Kind.regular, a) := by
  unfold reads at h
  cases hi : fs.info (target fs.cwd rootDir x) with
  | none => simp [hi] at h
  | some y =>
    obtain ⟨k, a⟩ := y
    cases k with
    | regular => exact ⟨a, rfl⟩
    | symlink => simp [hi] at h
    | directory => simp [hi] at h

end Restore

/-! ## The restorer: claims -/

open Restore in
/-- C1, as stated, fails, in two ways.  On a mount that leaves access times
alone, the manifest `aliasMismatch` has pairwise distinct relative paths, its
first entry names the existing file `/r/a.txt` with a hash that differs from
the file's, and yet the pass changes both timestamps of that file, because the
second entry, `./a.txt`, is joined to the same file.  And where a read moves the
access time, the target of an entry whose hash differs from the file's is read
for the comparison: on a mount that sets the access time at every read the
access time of `/r/b/c.txt` moves from `9` to the time of the read, and on a
`relatime` mount the access time of the file of `aheadFS`, which is not later
than its modification time, moves from `6` to the time of the read. -/
theorem restore_nonmatch_counterexample :
    (aliasMismatch.map (fun x => x.Path)).Nodup
      ∧ (⟨["a.txt"], "sha:other", T1⟩ : FileInfo) ∈ aliasMismatch
      ∧ (os_Stat sampleFS (Join sampleRoot ["a.txt"])).isSome = true
      ∧ (hash_file quietEnv sampleFS (Join sampleRoot ["a.txt"])).1 = .ok "sha:hello"
      ∧ sampleFS.timesAt (locate sampleFS.cwd (Join sampleRoot ["a.txt"])) = some (1, 6)
      ∧ (main quietEnv sampleRoot aliasMismatch sampleFS).fs.timesAt
            (locate sampleFS.cwd (Join sampleRoot ["a.txt"])) = some (2, 2)
      ∧ (sampleManifest.map (fun x => x.Path)).Nodup
      ∧ (⟨["b", "c.txt"], "sha:changed", T1⟩ : FileInfo) ∈ sampleManifest
      ∧ (hash_file sampleEnv sampleFS (Join sampleRoot ["b", "c.txt"])).1 = .ok "sha:world"
      ∧ sampleFS.timesAt (locate sampleFS.cwd (Join sampleRoot ["b", "c.txt"])) = some (2, 9)
      ∧ (main sampleEnv sampleRoot sampleManifest sampleFS).fs.timesAt
            (locate sampleFS.cwd (Join sampleRoot ["b", "c.txt"])) = some (2, 1001)
      ∧ (hash_file relatimeEnv aheadFS (Join sampleRoot ["a.txt"])).1 = .ok "sha:hello"
      ∧ aheadFS.timesAt (locate aheadFS.cwd (Join sampleRoot ["a.txt"])) = some (5000, 6)
      ∧ (main relatimeEnv sampleRoot oneMismatch aheadFS).fs.timesAt
            (locate aheadFS.cwd (Join sampleRoot ["a.txt"])) = some (5000, 1000) := by
  decide

open Restore in
/-- C1, amended: in a file system without links, when the entries of the
manifest are aimed at pairwise distinct files, an entry whose target does not
hash to the recorded hash leaves the modification time of its target as it was
before the pass; where reads do not move access times, it leaves the access
time as it was, too. -/
theorem restore_nonmatch_keeps_mtime (env : Env) (rootDir : Path) (m : List FileInfo) (fs : FS)
    (e : FileInfo) (_hlinks : fs.linkFree = true)
    (hnd : (m.map (target fs.cwd rootDir)).Nodup) (he : e ∈ m)
    (hh : (hash_file env fs (Join rootDir e.Path)).1 ≠ .ok e.Hash) :
    (main env rootDir m fs).fs.mtimeAt (target fs.cwd rootDir e)
        = fs.mtimeAt (target fs.cwd rootDir e)
      ∧ ((∀ k x, env.atimeOnRead k x = x.atime) →
          (main env rootDir m fs).fs.timesAt (target fs.cwd rootDir e)
            = fs.timesAt (target fs.cwd rootDir e)) := by
  have hc : counted env rootDir fs e = false := by
    unfold counted
    have : ((hash_file env fs (Join rootDir e.Path)).1 == Except.ok e.Hash) = false := by
      simpa using hh
    simp [this]
  have hv : verdict env rootDir fs e = none := by
    have := counted_eq env rootDir fs e
    rw [hc] at this
    cases h : verdict env rootDir fs e with
    | none => rfl
    | some t => rw [h] at this; cases this
  obtain ⟨k, hk⟩ := main_info_single env rootDir m fs e hnd he
  rw [hv] at hk
  constructor
  · rw [FS.mtimeAt_eq, FS.mtimeAt_eq, hk]
    split
    · cases fs.info (target fs.cwd rootDir e) <;> simp [effect, Attr.afterRead]
    · rfl
  · intro hq
    rw [FS.timesAt_eq, FS.timesAt_eq, hk]
    split
    · cases fs.info (target fs.cwd rootDir e) <;> simp [effect, Attr.afterRead, hq]
    · rfl

open Restore in
/-- In `sampleManifest` the entry for `b/c.txt` has a hash the file does not
have: the modification time stays `2`, and on a mount that leaves access times
alone both timestamps stay. -/
theorem restore_nonmatch_keeps_mtime_witness :
    (main sampleEnv sampleRoot sampleManifest sampleFS).fs.mtimeAt ["r", "b", "c.txt"] = some 2
      ∧ (main quietEnv sampleRoot sampleManifest sampleFS).fs.timesAt ["r", "b", "c.txt"]
          = some (2, 9) :=
  ⟨(restore_nonmatch_keeps_mtime sampleEnv sampleRoot sampleManifest sampleFS
      ⟨["b", "c.txt"], "sha:changed", T1⟩ (by decide) (by decide) (by decide) (by decide)).1,
   (restore_nonmatch_keeps_mtime quietEnv sampleRoot sampleManifest sampleFS
      ⟨["b", "c.txt"], "sha:changed", T1⟩ (by decide) (by decide) (by decide) (by decide)).2
      (fun _ _ => rfl)⟩

open Restore in
/-- C2, as stated, fails, in three ways.  The manifest `aliasMatch` has pairwise
distinct relative paths and its first entry is counted as updated with the
recorded time `1`, yet after the pass the file carries the time `2` of the
entry `./a.txt`.  An entry with a recorded time in the year 2300 is counted as
updated, and the file carries another time, because the nanoseconds since 1970
that `os.Chtimes` hands over do not fit 64 bits.  An entry whose recorded time
is the zero time is counted as updated, and `os.Chtimes` sets nothing. -/
theorem restore_match_counterexample :
    (aliasMatch.map (fun x => x.Path)).Nodup
      ∧ (⟨["a.txt"], "sha:hello", T1⟩ : FileInfo) ∈ aliasMatch
      ∧ counted sampleEnv sampleRoot sampleFS ⟨["a.txt"], "sha:hello", T1⟩ = true
      ∧ time_Parse sampleEnv T1 = some 1
      ∧ (main sampleEnv sampleRoot aliasMatch sampleFS).fs.timesAt
            (locate sampleFS.cwd (Join sampleRoot ["a.txt"])) = some (2, 2)
      ∧ counted sampleEnv sampleRoot sampleFS ⟨["a.txt"], "sha:hello", T2300⟩ = true
      ∧ time_Parse sampleEnv T2300 = some 10413792000000000000
      ∧ (main sampleEnv sampleRoot [⟨["a.txt"], "sha:hello", T2300⟩] sampleFS).fs.timesAt
            (locate sampleFS.cwd (Join sampleRoot ["a.txt"]))
          = some (-8032952073709551616, -8032952073709551616)
      ∧ counted sampleEnv sampleRoot sampleFS ⟨["a.txt"], "sha:hello", T0⟩ = true
      ∧ time_Parse sampleEnv T0 = some zeroTime
      ∧ (main sampleEnv sampleRoot [⟨["a.txt"], "sha:hello", T0⟩] sampleFS).updated = 1
      ∧ (main sampleEnv sampleRoot [⟨["a.txt"], "sha:hello", T0⟩] sampleFS).fs.timesAt
            (locate sampleFS.cwd (Join sampleRoot ["a.txt"])) = some (1, 1000) := by
  decide

open Restore in
/-- C2, amended: in a file system without links, for a root argument that is not
empty, when the entries of the manifest are aimed at pairwise distinct files,
an entry the restorer counts as updated, whose recorded time fits 64-bit
nanoseconds since 1970 and is kept as it is by the file system, leaves its
target with the modification and the access time both equal to the recorded
time. -/
theorem restore_match_sets_times (env : Env) (rootDir : Path) (m : List FileInfo) (fs : FS)
    (e : FileInfo) (t : Time) (_hlinks : fs.linkFree = true)
    (_hroot : rootDir.isEmpty = false)
    (hnd : (m.map (target fs.cwd rootDir)).Nodup) (he : e ∈ m)
    (hc : counted env rootDir fs e = true) (ht : time_Parse env e.ModTime = some t)
    (hr : inInt64 t = true) (hsm : env.storedMtime t = t) (hsa : env.storedAtime t = t) :
    (main env rootDir m fs).fs.timesAt (target fs.cwd rootDir e) = some (t, t) := by
  rw [counted_eq] at hc
  obtain ⟨t', ht'⟩ := Option.isSome_iff_exists.mp hc
  obtain ⟨a, hi, hp⟩ := verdict_info env rootDir fs e t' ht'
  have htt : t' = t := by
    rw [ht] at hp
    exact (Option.some.inj hp).symm
  subst htt
  have hz : t' ≠ zeroTime := by
    intro h
    rw [h, zeroTime_not_inInt64] at hr
    cases hr
  obtain ⟨k, hk⟩ := main_info_single env rootDir m fs e hnd he
  rw [verdict_reads env rootDir fs e t' ht', ht', hi] at hk
  rw [FS.timesAt_eq, hk]
  simp [effect, Attr.chtimes, chtime, hz, wrap64_of_inInt64 t' hr, hsm, hsa]

open Restore in
/-- In `sampleManifest` the entry for `a.txt` is counted as updated; its recorded
time is `2`. -/
theorem restore_match_sets_times_witness :
    (main sampleEnv sampleRoot sampleManifest sampleFS).fs.timesAt
        (target sampleFS.cwd sampleRoot ⟨["a.txt"], "sha:hello", T2⟩) = some (2, 2) :=
  restore_match_sets_times sampleEnv sampleRoot sampleManifest sampleFS
    ⟨["a.txt"], "sha:hello", T2⟩ 2 (by decide) (by decide) (by decide) (by decide) (by decide)
    (by decide) (by decide) rfl rfl

open Restore in
/-- C3: the pass goes through the whole manifest; it reports as total the number
of entries and as updated the number of entries whose target exists, hashes to
the recorded hash, whose time parses and can be set; an entry whose target is
missing is not among the updated ones; the updated count is at most the total. -/
theorem restore_report (env : Env) (rootDir : Path) (m : List FileInfo) (fs : FS) :
    (main env rootDir m fs).parsed = m.length
      ∧ (main env rootDir m fs).updated = m.countP (counted env rootDir fs)
      ∧ (∀ x ∈ m, os_Stat fs (Join rootDir x.Path) = none → counted env rootDir fs x = false)
      ∧ (main env rootDir m fs).updated ≤ (main env rootDir m fs).parsed := by
  have hu : (main env rootDir m fs).updated = m.countP (counted env rootDir fs) := by
    rw [main_updated]
    congr 1
    funext x
    rw [counted_eq]
  refine ⟨rfl, hu, ?_, ?_⟩
  · intro x _ hx
    simp [counted, hx]
  · rw [hu]
    exact List.countP_le_length _

open Restore in
/-- The report for `sampleManifest`: three entries, one updated, `d.txt` missing. -/
theorem restore_report_witness :
    (main sampleEnv sampleRoot sampleManifest sampleFS).parsed = 3
      ∧ (main sampleEnv sampleRoot sampleManifest sampleFS).updated = 1
      ∧ counted sampleEnv sampleRoot sampleFS ⟨["d.txt"], "sha:gone", T1⟩ = false := by
  obtain ⟨h1, h2, h3, _⟩ := restore_report sampleEnv sampleRoot sampleManifest sampleFS
  exact ⟨h1, h2.trans (by decide), h3 _ (by decide) rfl⟩

open Restore in
/-- C4, as stated, fails: the second pass reads every target again to compare
the hashes, also of entries that are not updated.  On a mount that sets the
access time at every read it leaves `/r/b/c.txt` with a later access time than
the first pass did; on a `relatime` mount it does so for the file of `aheadFS`,
whose modification time is ahead of the clock.  The updated counts agree. -/
theorem restore_idempotent_counterexample :
    (main sampleEnv sampleRoot sampleManifest sampleFS).fs.timesAt ["r", "b", "c.txt"]
        = some (2, 1001)
      ∧ (main sampleEnv sampleRoot sampleManifest
          (main sampleEnv sampleRoot sampleManifest sampleFS).fs).fs.timesAt ["r", "b", "c.txt"]
        = some (2, 1003)
      ∧ (main sampleEnv sampleRoot sampleManifest
          (main sampleEnv sampleRoot sampleManifest sampleFS).fs).updated
        = (main sampleEnv sampleRoot sampleManifest sampleFS).updated
      ∧ (main relatimeEnv sampleRoot oneMismatch aheadFS).fs.timesAt ["r", "a.txt"]
        = some (5000, 1000)
      ∧ (main relatimeEnv sampleRoot oneMismatch
          (main relatimeEnv sampleRoot oneMismatch aheadFS).fs).fs.timesAt ["r", "a.txt"]
        = some (5000, 1001) := by
  decide

open Restore in
/-- C4, amended: a second pass with the same manifest on the state the first pass
left leaves the modification time at every location as the first pass left it
and reports the same updated count; where reads do not move access times, it
leaves the access times as the first pass left them, too. -/
theorem restore_idempotent (env : Env) (rootDir : Path) (m : List FileInfo) (fs : FS) :
    (∀ loc, (main env rootDir m (main env rootDir m fs).fs).fs.mtimeAt loc
        = (main env rootDir m fs).fs.mtimeAt loc)
      ∧ (main env rootDir m (main env rootDir m fs).fs).updated
        = (main env rootDir m fs).updated
      ∧ ((∀ k x, env.atimeOnRead k x = x.atime) →
          ∀ loc, (main env rootDir m (main env rootDir m fs).fs).fs.timesAt loc
            = (main env rootDir m fs).fs.timesAt loc) := by
  have hs := main_same env rootDir m fs
  refine ⟨?_, ?_, ?_⟩
  · intro loc
    rw [main_mtime env rootDir m (main env rootDir m fs).fs,
      lastWritten_congr env rootDir fs _ loc hs m, main_mtime env rootDir m fs]
    cases lastWritten env rootDir fs loc m with
    | none => rfl
    | some t => cases fs.mtimeAt loc <;> rfl
  · rw [main_updated, main_updated]
    congr 1
    funext x
    rw [verdict_congr env rootDir fs _ hs]
  · intro hq loc
    rw [main_times env hq rootDir m (main env rootDir m fs).fs,
      lastWritten_congr env rootDir fs _ loc hs m, main_times env hq rootDir m fs]
    cases lastWritten env rootDir fs loc m with
    | none => rfl
    | some t => cases fs.timesAt loc <;> rfl

open Restore in
/-- Two passes with `sampleManifest` on a mount that leaves access times alone. -/
theorem restore_idempotent_witness :
    ∀ loc, (main quietEnv sampleRoot sampleManifest
        (main quietEnv sampleRoot sampleManifest sampleFS).fs).fs.timesAt loc
      = (main quietEnv sampleRoot sampleManifest sampleFS).fs.timesAt loc :=
  (restore_idempotent quietEnv sampleRoot sampleManifest sampleFS).2.2 (fun _ _ => rfl)

open Restore in
/-- C10, as stated, fails, in two ways.  On a mount that leaves access times
alone, `aliasMatch` has pairwise distinct relative paths, and restoring it
leaves `/r/a.txt` with the time `2` while restoring the same entries in the
other order leaves it with the time `1`.  And where a read sets the access time,
the files of `twoMismatches` are read in the order of the entries, so that the
access times they end with depend on that order. -/
theorem restore_order_counterexample :
    (aliasMatch.map (fun x => x.Path)).Nodup
      ∧ aliasMatch.Perm aliasMatch.reverse
      ∧ (main quietEnv sampleRoot aliasMatch sampleFS).fs.timesAt ["r", "a.txt"] = some (2, 2)
      ∧ (main quietEnv sampleRoot aliasMatch.reverse sampleFS).fs.timesAt ["r", "a.txt"]
          = some (1, 1)
      ∧ (twoMismatches.map (fun x => x.Path)).Nodup
      ∧ twoMismatches.Perm twoMismatches.reverse
      ∧ (main sampleEnv sampleRoot twoMismatches sampleFS).fs.timesAt ["r", "a.txt"]
          = some (1, 1000)
      ∧ (main sampleEnv sampleRoot twoMismatches.reverse sampleFS).fs.timesAt ["r", "a.txt"]
          = some (1, 1001) :=
  ⟨by decide, (List.reverse_perm aliasMatch).symm, by decide, by decide, by decide,
    (List.reverse_perm twoMismatches).symm, by decide, by decide⟩

open Restore in
/-- C10, amended: in a file system without links, when the entries of the
manifest are aimed at pairwise distinct files, restoring any permutation of the
manifest leaves the same modification time at every location and reports the
same total and the same updated count; where reads do not move access times, it
leaves the same access times, too. -/
theorem restore_order_independent (env : Env) (rootDir : Path) (m m' : List FileInfo) (fs : FS)
    (_hlinks : fs.linkFree = true) (hp : m.Perm m')
    (hnd : (m.map (target fs.cwd rootDir)).Nodup) :
    (∀ loc, (main env rootDir m' fs).fs.mtimeAt loc = (main env rootDir m fs).fs.mtimeAt loc)
      ∧ (main env rootDir m' fs).parsed = (main env rootDir m fs).parsed
      ∧ (main env rootDir m' fs).updated = (main env rootDir m fs).updated
      ∧ ((∀ k x, env.atimeOnRead k x = x.atime) →
          ∀ loc, (main env rootDir m' fs).fs.timesAt loc
            = (main env rootDir m fs).fs.timesAt loc) := by
  refine ⟨?_, ?_, ?_, ?_⟩
  · intro loc
    rw [main_mtime, main_mtime, lastWritten_perm env rootDir fs loc m m' hp hnd]
  · show m'.length = m.length
    exact hp.length_eq.symm
  · rw [main_updated, main_updated]
    exact (hp.countP_eq _).symm
  · intro hq loc
    rw [main_times env hq, main_times env hq, lastWritten_perm env rootDir fs loc m m' hp hnd]

open Restore in
/-- Restoring `sampleManifest` in reverse order. -/
theorem restore_order_independent_witness :
    (∀ loc, (main sampleEnv sampleRoot sampleManifest.reverse sampleFS).fs.mtimeAt loc
        = (main sampleEnv sampleRoot sampleManifest sampleFS).fs.mtimeAt loc)
      ∧ (main sampleEnv sampleRoot sampleManifest.reverse sampleFS).updated
          = (main sampleEnv sampleRoot sampleManifest sampleFS).updated
      ∧ (∀ loc, (main quietEnv sampleRoot sampleManifest.reverse sampleFS).fs.timesAt loc
          = (main quietEnv sampleRoot sampleManifest sampleFS).fs.timesAt loc) :=
  ⟨(restore_order_independent sampleEnv sampleRoot sampleManifest sampleManifest.reverse
      sampleFS (by decide) (List.reverse_perm sampleManifest).symm (by decide)).1,
   (restore_order_independent sampleEnv sampleRoot sampleManifest sampleManifest.reverse
      sampleFS (by decide) (List.reverse_perm sampleManifest).symm (by decide)).2.2.1,
   (restore_order_independent quietEnv sampleRoot sampleManifest sampleManifest.reverse
      sampleFS (by decide) (List.reverse_perm sampleManifest).symm (by decide)).2.2.2
      (fun _ _ => rfl)⟩

/-! ## Path safety -/

/-- C7, as stated, fails: for the root `/r` and the relative path `../x` the
joined path is `/x`, which does not lie inside `/r`; restoring a manifest with
that entry re-timestamps the file `/x` outside the root. -/
theorem join_escapes_root_counterexample :
    Join sampleRoot ["..", "x"] = ["", "x"]
      ∧ ¬ (locate sampleFS.cwd sampleRoot <+: locate sampleFS.cwd (Join sampleRoot ["..", "x"]))
      ∧ sampleFS.timesAt ["x"] = some (3, 4)
      ∧ (Restore.main sampleEnv sampleRoot [⟨["..", "x"], "sha:out", T1⟩] sampleFS).fs.timesAt
          ["x"] = some (1, 1) := by
  decide

open Restore in
/-- C7, amended: for a non-empty root and a manifest whose relative paths never
climb above their own start through `..` elements (in particular paths without
`..` elements), the path obtained by joining the root with the relative path of
an entry lies inside the root as a path: the location of the root is an initial
part of its location.  In a file system without links the pass then leaves the
timestamps at every location outside the root as they were. -/
theorem join_stays_inside_root (env : Env) (fs : FS) (rootDir : Path) (m : List FileInfo)
    (_hlinks : fs.linkFree = true) (hroot : rootDir.isEmpty = false)
    (hm : ∀ e ∈ m, ".." ∉ cleanStack false [] e.Path) :
    (∀ e ∈ m, locate fs.cwd rootDir <+: locate fs.cwd (Join rootDir e.Path))
      ∧ (∀ loc, ¬ (locate fs.cwd rootDir <+: loc) →
          (main env rootDir m fs).fs.timesAt loc = fs.timesAt loc) := by
  have hin : ∀ e ∈ m, locate fs.cwd rootDir <+: locate fs.cwd (Join rootDir e.Path) := by
    intro e he
    rw [locate_Join fs.cwd rootDir e.Path hroot, cleanStack_noClimb true _ e.Path (hm e he)]
    simp
  refine ⟨hin, ?_⟩
  intro loc hloc
  rw [FS.timesAt_eq, FS.timesAt_eq, main_info_unread]
  intro x hx hxl
  exact absurd (hxl ▸ hin x hx) hloc

open Restore in
/-- The manifest `sampleManifest` restored below `/r`: its paths stay inside and
the file `/x` keeps its timestamps. -/
theorem join_stays_inside_root_witness :
    locate sampleFS.cwd sampleRoot <+: locate sampleFS.cwd (Join sampleRoot ["b", "c.txt"])
      ∧ (main sampleEnv sampleRoot sampleManifest sampleFS).fs.timesAt ["x"]
          = sampleFS.timesAt ["x"] := by
  obtain ⟨h1, h2⟩ := join_stays_inside_root sampleEnv sampleFS sampleRoot sampleManifest
    (by decide) (by decide) (by decide)
  exact ⟨h1 ⟨["b", "c.txt"], "sha:changed", T1⟩ (by decide), h2 ["x"] (by decide)⟩

/-! ## Directory entries -/

open Restore in
/-- C6, as stated, fails: a record that is flagged as a directory and names the
regular file `/r/a.txt` with its hash is not skipped: the file is hashed, its
timestamps are set and the entry is counted. -/
theorem restore_flagged_entry_counterexample :
    flaggedRecord.is_directory = true
      ∧ (hash_file sampleEnv sampleFS (Join sampleRoot (unmarshal flaggedRecord).Path)).1
          = .ok "sha:hello"
      ∧ (main sampleEnv sampleRoot [unmarshal flaggedRecord] sampleFS).updated = 1
      ∧ sampleFS.timesAt ["r", "a.txt"] = some (1, 6)
      ∧ (main sampleEnv sampleRoot [unmarshal flaggedRecord] sampleFS).fs.timesAt ["r", "a.txt"]
          = some (2, 2) := by
  decide

open Restore in
/-- C6, amended: the restorer does not look at `is_directory`: the pass is the same
whatever the flags of the records are.  What it never restores is a directory of
the target tree: the timestamps of a directory are the same after the pass as
before, and no entry whose path names a directory is counted as updated (hashing
a directory fails). -/
theorem restore_never_touches_directory (env : Env) (rootDir : Path)
    (records : List ManifestRecord) (fs : FS) :
    (∀ flag : ManifestRecord → Bool,
        (records.map (fun r => { r with is_directory := flag r })).map unmarshal
          = records.map unmarshal)
      ∧ (∀ loc a, fs.info loc = some (Kind.directory, a) →
          (main env rootDir (records.map unmarshal) fs).fs.timesAt loc = fs.timesAt loc
            ∧ ∀ r ∈ records, target fs.cwd rootDir (unmarshal r) = loc →
                counted env rootDir fs (unmarshal r) = false) := by
  constructor
  · intro flag
    rw [List.map_map]
    rfl
  · intro loc a hdir
    have hv : ∀ x : FileInfo, target fs.cwd rootDir x = loc →
        verdict env rootDir fs x = none ∧ reads rootDir fs x = false :=
      fun x hx => verdict_directory env rootDir fs x a (hx ▸ hdir)
    constructor
    · rw [FS.timesAt_eq, FS.timesAt_eq, main_info_unread env rootDir _ fs loc
        (fun x _ hx => (hv x hx).2)]
    · intro r _ hr
      rw [counted_eq, (hv _ hr).1]
      rfl

open Restore in
/-- The directory `/r/b` of `sampleFS`, named by a record of the manifest. -/
theorem restore_never_touches_directory_witness :
    (main sampleEnv sampleRoot
        ([flaggedRecord, directoryRecord].map unmarshal) sampleFS).fs.timesAt ["r", "b"]
        = sampleFS.timesAt ["r", "b"]
      ∧ counted sampleEnv sampleRoot sampleFS (unmarshal directoryRecord) = false := by
  obtain ⟨h1, h2⟩ := (restore_never_touches_directory sampleEnv sampleRoot
    [flaggedRecord, directoryRecord] sampleFS).2 ["r", "b"] sampleDirAttr (by decide)
  exact ⟨h1, h2 _ (by decide) (by decide)⟩

/-! ## Lemmas on trees and visited paths -/

theorem Node.lookup_append (p q : List String) :
    ∀ n : Node, n.lookup (p ++ q) = (n.lookup p).bind (fun x => x.lookup q) := by
  induction p with
  | nil => intro n; simp [Node.lookup]
  | cons c cs ih =>
    intro n
    cases n with
    | file a => simp [Node.lookup]
    | symlink a => simp [Node.lookup]
    | dir a es =>
      simp only [List.cons_append, Node.lookup]
      cases findEntry c es with
      | none => rfl
      | some ch => exact ih ch

theorem findEntry_of_wellFormed :
    ∀ (es : List (String × Node)) (c : String) (ch : Node),
      entriesWellFormed es = true → (c, ch) ∈ es → findEntry c es = some ch := by
  intro es
  induction es with
  | nil => intro c ch _ h; cases h
  | cons e rest ih =>
    intro c ch hwf hmem
    obtain ⟨name, n⟩ := e
    simp only [entriesWellFormed, Bool.and_eq_true] at hwf
    obtain ⟨⟨⟨_, hfresh⟩, _⟩, hrest⟩ := hwf
    rcases List.mem_cons.mp hmem with h | h
    · cases h
      simp [findEntry]
    · have h1 := ih c ch hrest h
      by_cases hc : name = c
      · subst hc
        rw [h1] at hfresh
        cases hfresh
      · simp [findEntry, hc, h1]

theorem relFrom_append (B ns : List String) : relFrom B (B ++ ns) = .ok ns := by
  induction B with
  | nil => cases ns <;> rfl
  | cons b rest ih => simp [relFrom, ih]

theorem Clean_isEmpty (p : Path) : (Clean p).isEmpty = false := by
  unfold Clean
  cases h : isRooted p with
  | true => cases cleanElems p <;> simp [render, Path.isEmpty]
  | false =>
    have hm : ∀ x ∈ cleanElems p, x ≠ "" := by
      intro x hx
      unfold cleanElems at hx
      exact (cleanStack_mem _ p [] (by simp) x (List.mem_reverse.mp hx)).1
    cases hE : cleanElems p with
    | nil => simp [render, Path.isEmpty]
    | cons c rest =>
      have hc : c ≠ "" := hm c (hE ▸ List.mem_cons_self _ _)
      cases rest <;> simp [render, Path.isEmpty, hc]

theorem cleanElems_Clean (p : Path) : cleanElems (Clean p) = cleanElems p := by
  unfold cleanElems
  rw [isRooted_Clean, cleanStack_Clean (isRooted p) [] p (fun h => ⟨h, rfl⟩)]

theorem Join_isEmpty (a b : Path) (ha : a.isEmpty = false) : (Join a b).isEmpty = false := by
  unfold Join
  cases hb : b.isEmpty <;> simp only [ha] <;> exact Clean_isEmpty _

theorem singleton_isEmpty (c : String) (hc : validName c = true) :
    Path.isEmpty [c] = false := by
  have := ((validName_iff c).mp hc).1
  simp [Path.isEmpty, this]

theorem Join_name (a : Path) (c : String) (ha : a.isEmpty = false) (hc : validName c = true) :
    Join a [c] = Clean (a ++ [c]) := by
  unfold Join
  simp only [ha, singleton_isEmpty c hc]


theorem mem_of_findEntry :
    ∀ (es : List (String × Node)) (c : String) (ch : Node),
      findEntry c es = some ch → (c, ch) ∈ es := by
  intro es
  induction es with
  | nil => intro c ch h; cases h
  | cons e rest ih =>
    intro c ch h
    obtain ⟨name, n⟩ := e
    by_cases hc : name = c
    · subst hc
      simp only [findEntry, if_true, Option.some.injEq] at h
      subst h
      exact List.mem_cons_self _ _
    · simp only [findEntry, hc, if_false] at h
      exact List.mem_cons_of_mem _ (ih c ch h)

theorem mem_entriesFiles (pre : List String) (x : List String × Attr) :
    ∀ (es : List (String × Node)) (c : String) (ch : Node),
      (c, ch) ∈ es → x ∈ ch.files (pre ++ [c]) → x ∈ entriesFiles pre es := by
  intro es
  induction es with
  | nil => intro c ch h; cases h
  | cons e rest ih =>
    intro c ch hmem hx
    obtain ⟨name, n⟩ := e
    simp only [entriesFiles, List.mem_append]
    rcases List.mem_cons.mp hmem with h | h
    · cases h
      exact Or.inl hx
    · exact Or.inr (ih c ch h hx)

/-- Every regular file below a node is enumerated. -/
theorem Node.mem_files (a : Attr) :
    ∀ (p pre : List String) (n : Node),
      n.lookup p = some (.file a) → (pre ++ p, a) ∈ n.files pre := by
  intro p
  induction p with
  | nil =>
    intro pre n h
    simp only [Node.lookup, Option.some.injEq] at h
    subst h
    simp [Node.files]
  | cons c cs ih =>
    intro pre n h
    cases n with
    | file b => simp [Node.lookup] at h
    | symlink b => simp [Node.lookup] at h
    | dir b es =>
      simp only [Node.lookup] at h
      cases hf : findEntry c es with
      | none => simp [hf] at h
      | some ch =>
        simp only [hf] at h
        have h1 := ih (pre ++ [c]) ch h
        simp only [List.append_assoc, List.singleton_append] at h1
        simp only [Node.files]
        exact mem_entriesFiles pre _ es c ch (mem_of_findEntry es c ch hf) h1

mutual
/-- In a well-formed tree every enumerated file is found at the names it is
enumerated with, and these names are ordinary. -/
theorem Node.files_lookup (a : Attr) :
    ∀ (n : Node) (pre q : List String), n.wellFormed = true → (q, a) ∈ n.files pre →
      ∃ p, q = pre ++ p ∧ (∀ c ∈ p, validName c = true) ∧ n.lookup p = some (.file a)
  | .file b, pre, q, _, h => by
    simp only [Node.files, List.mem_singleton, Prod.mk.injEq] at h
    obtain ⟨h1, h2⟩ := h
    subst h1; subst h2
    exact ⟨[], by simp, by simp, rfl⟩
  | .symlink b, pre, q, _, h => by simp [Node.files] at h
  | .dir b es, pre, q, hwf, h => by
    simp only [Node.wellFormed] at hwf
    simp only [Node.files] at h
    obtain ⟨c, ch, p, hmem, hq, hc, hp, hlk⟩ := entriesFiles_lookup a es pre q hwf h
    refine ⟨c :: p, hq, ?_, ?_⟩
    · intro x hx
      rcases List.mem_cons.mp hx with hx | hx
      · rw [hx]; exact hc
      · exact hp x hx
    · simp [Node.lookup, findEntry_of_wellFormed es c ch hwf hmem, hlk]
/-- The enumerated files of the entries of a well-formed directory. -/
theorem entriesFiles_lookup (a : Attr) :
    ∀ (es : List (String × Node)) (pre q : List String), entriesWellFormed es = true →
      (q, a) ∈ entriesFiles pre es →
      ∃ c ch p, (c, ch) ∈ es ∧ q = pre ++ c :: p ∧ validName c = true
        ∧ (∀ x ∈ p, validName x = true) ∧ ch.lookup p = some (.file a)
  | [], pre, q, _, h => by simp [entriesFiles] at h
  | (c, n) :: rest, pre, q, hwf, h => by
    simp only [entriesWellFormed, Bool.and_eq_true] at hwf
    obtain ⟨⟨⟨hc, _⟩, hn⟩, hrest⟩ := hwf
    simp only [entriesFiles, List.mem_append] at h
    rcases h with h | h
    · obtain ⟨p, hq, hp, hlk⟩ := Node.files_lookup a n (pre ++ [c]) q hn h
      exact ⟨c, n, p, List.mem_cons_self _ _, by simp [hq], hc, hp, hlk⟩
    · obtain ⟨c', ch, p, hmem, hq, hc', hp, hlk⟩ := entriesFiles_lookup a rest pre q hrest h
      exact ⟨c', ch, p, List.mem_cons_of_mem _ hmem, hq, hc', hp, hlk⟩
end


theorem entriesAll_find (p : Node → Bool) :
    ∀ (es : List (String × Node)) (c : String) (ch : Node),
      entriesAll p es = true → findEntry c es = some ch → ch.all p = true := by
  intro es
  induction es with
  | nil => intro c ch _ h; cases h
  | cons e rest ih =>
    intro c ch hall hf
    obtain ⟨name, n⟩ := e
    simp only [entriesAll, Bool.and_eq_true] at hall
    by_cases hc : name = c
    · simp only [findEntry, hc, if_true, Option.some.injEq] at hf
      subst hf
      exact hall.1
    · simp only [findEntry, hc, if_false] at hf
      exact ih c ch hall.2 hf

theorem Node.all_self (p : Node → Bool) (n : Node) (h : n.all p = true) : p n = true := by
  cases n with
  | file a => simpa [Node.all] using h
  | symlink a => simpa [Node.all] using h
  | dir a es =>
    simp only [Node.all, Bool.and_eq_true] at h
    exact h.1

/-- What holds for every node of a tree holds for the node at any location. -/
theorem Node.all_lookup (p : Node → Bool) :
    ∀ (q : List String) (n x : Node), n.all p = true → n.lookup q = some x → p x = true := by
  intro q
  induction q with
  | nil =>
    intro n x h hl
    simp only [Node.lookup, Option.some.injEq] at hl
    subst hl
    exact Node.all_self p n h
  | cons c cs ih =>
    intro n x h hl
    cases n with
    | file a => simp [Node.lookup] at hl
    | symlink a => simp [Node.lookup] at hl
    | dir a es =>
      simp only [Node.all, Bool.and_eq_true] at h
      simp only [Node.lookup] at hl
      cases hf : findEntry c es with
      | none => simp [hf] at hl
      | some ch =>
        simp only [hf] at hl
        exact ih ch x (entriesAll_find p es c ch h.2 hf) hl

theorem os_Lstat_some (fs : FS) (rootDir : Path) (n : Node)
    (h : os_Lstat fs rootDir = some n) :
    rootDir.isEmpty = false ∧ fs.root.lookup (locate fs.cwd rootDir) = some n := by
  unfold os_Lstat at h
  cases he : rootDir.isEmpty with
  | true => simp [he] at h
  | false => simpa [he] using h

/-! ## Lemmas on the walk -/

theorem Attr.afterRead_noAtime (env : Env) (k : Nat) (x : Attr) :
    (x.afterRead env k).noAtime = x.noAtime := rfl

/-- A read keeps everything but access times. -/
theorem FS.sameButAtime_read (env : Env) (fs0 cur : FS) (loc : List String) (k : Nat)
    (h : fs0.SameButAtime cur) :
    fs0.SameButAtime ((cur.modify (Attr.afterRead env k) loc).next) :=
  FS.sameButAtime_trans
    (FS.sameButAtime_trans h (FS.sameButAtime_modify cur _ loc (Attr.afterRead_noAtime env k)))
    (FS.sameButAtime_next _)

theorem Node.eq_file_of_shallow (n : Node) (a : Attr) (h : n.shallow = (Kind.regular, a)) :
    n = .file a := by
  cases n with
  | file b =>
    simp only [Node.shallow, Node.kind, Node.attr, Prod.mk.injEq, true_and] at h
    rw [h]
  | symlink b => simp [Node.shallow, Node.kind] at h
  | dir b es => simp [Node.shallow, Node.kind] at h

/-- What is seen at a location in a state that differs in access times only. -/
theorem FS.SameButAtime.info {fs0 cur : FS} (h : fs0.SameButAtime cur) (loc : List String)
    (k : Kind) (a : Attr) (hi : fs0.info loc = some (k, a)) :
    ∃ a', cur.info loc = some (k, a') ∧ a'.noAtime = a.noAtime := by
  have := h.2 loc
  rw [hi] at this
  cases hc : cur.info loc with
  | none => rw [hc] at this; cases this
  | some y =>
    obtain ⟨k', a'⟩ := y
    rw [hc] at this
    simp only [Option.map_some', Option.some.injEq, Prod.mk.injEq] at this
    obtain ⟨hk, ha⟩ := this
    subst hk
    exact ⟨a', rfl, ha.symm⟩

theorem FS.info_of_lookup (fs : FS) (loc : List String) (n : Node)
    (h : fs.root.lookup loc = some n) : fs.info loc = some (n.kind, n.attr) := by
  simp [FS.info, h, Node.shallow]

/-- A regular file is a regular file with the same content in a state that
differs in access times only. -/
theorem FS.SameButAtime.file {fs0 cur : FS} (h : fs0.SameButAtime cur) (loc : List String)
    (a : Attr) (hl : fs0.root.lookup loc = some (.file a)) :
    ∃ a', cur.root.lookup loc = some (.file a') ∧ a'.noAtime = a.noAtime := by
  obtain ⟨a', h1, h2⟩ := h.info loc Kind.regular a (FS.info_of_lookup fs0 loc _ hl)
  refine ⟨a', ?_, h2⟩
  unfold FS.info at h1
  cases hc : cur.root.lookup loc with
  | none => rw [hc] at h1; cases h1
  | some n =>
    rw [hc] at h1
    simp only [Option.map_some', Option.some.injEq] at h1
    rw [Node.eq_file_of_shallow n a' h1]

namespace Save

theorem Visits.root (fs : FS) (rootDir : Path) (h : rootDir.isEmpty = false) :
    Visits fs rootDir rootDir [] :=
  ⟨h, rfl, by simp, by simp⟩

theorem Visits.child {fs : FS} {rootDir path : Path} {ns : List String}
    (v : Visits fs rootDir path ns) (c : String) (hc : validName c = true) :
    Visits fs rootDir (Join path [c]) (ns ++ [c]) := by
  obtain ⟨h1, h2, h3⟩ := (validName_iff c).mp hc
  refine ⟨Join_isEmpty _ _ v.nonempty, ?_, ?_, ?_⟩
  · rw [Join_name path c v.nonempty hc, isRooted_Clean, isRooted_append _ _ v.nonempty, v.rooted]
  · rw [Join_name path c v.nonempty hc, cleanElems_Clean]
    unfold cleanElems
    rw [isRooted_append _ _ v.nonempty, cleanStack_snoc, cleanStep_plain _ _ c h1 h2 h3,
      List.reverse_cons, ← List.append_assoc]
    congr 1
    exact v.elems
  · rw [locate_Join_names fs.cwd path [c] v.nonempty (by simpa using hc), v.loc,
      List.append_assoc]

/-- The relative path the snapshotter computes for a visited entry. -/
theorem Visits.rel {fs : FS} {rootDir path : Path} {ns : List String}
    (v : Visits fs rootDir path ns) :
    Rel rootDir path = .ok (if ns = [] then ["."] else ns) := by
  unfold Rel
  simp only [v.rooted, v.elems, true_and, ne_eq, not_true_eq_false, if_false]
  by_cases hns : ns = []
  · simp [hns]
  · have h1 : ¬ cleanElems rootDir = cleanElems rootDir ++ ns := by
      intro h
      have := congrArg List.length h
      simp at this
      exact hns this
    have h2 : ¬ (cleanElems rootDir ++ ns = [] ∧ isRooted rootDir = false) := by
      intro h
      have := congrArg List.length h.1
      simp at this
      exact hns this.2
    simp only [h1, h2, if_false, hns, relFrom_append]

/-- The call of `hash_file` for a visited regular file, in a state that differs
from the one the walk started in by access times only. -/
theorem hash_file_visits (env : Env) {fs0 cur : FS} {rootDir path : Path} {ns : List String}
    (v : Visits fs0 rootDir path ns) (hs : fs0.SameButAtime cur) (a : Attr)
    (hlook : fs0.root.lookup (locate fs0.cwd rootDir ++ ns) = some (.file a)) :
    hash_file env cur path
      = if a.readable then (.ok (env.sha256hex a.content), afterReadDir env cur path)
        else (.error "open: permission denied", cur) := by
  obtain ⟨a', h1, h2⟩ := hs.file _ a hlook
  have hr : a'.readable = a.readable := (congrArg Attr.readable h2 : a'.noAtime.readable = a.noAtime.readable)
  have hc : a'.content = a.content := (congrArg Attr.content h2 : a'.noAtime.content = a.noAtime.content)
  unfold hash_file os_Stat os_Lstat afterReadDir
  rw [← hs.1]
  simp only [v.nonempty, v.loc, h1, Bool.false_eq_true, if_false, hr, hc]

theorem walkFn_file (env : Env) {fs0 cur : FS} {rootDir path : Path} {ns : List String}
    (v : Visits fs0 rootDir path ns) (hs : fs0.SameButAtime cur) (a : Attr)
    (acc : List FileInfo)
    (hlook : fs0.root.lookup (locate fs0.cwd rootDir ++ ns) = some (.file a)) :
    walkFn env rootDir path (some (.file a)) none (acc, cur)
      = if a.infoOk then
          .ok (acc ++ (([(ns, a)] : List (List String × Attr)).filter
            (fun x => x.2.readable)).map (entryOf env),
            if a.readable then afterReadDir env cur path else cur)
        else .error infoError := by
  unfold walkFn
  simp only [Node.kind, Node.attr, hash_file_visits env v hs a hlook, v.rel]
  cases hi : a.infoOk <;> cases hr : a.readable <;> simp [entryOf, List.filter, hr]

theorem walkFn_symlink (env : Env) (rootDir path : Path) (a : Attr)
    (s : List FileInfo × FS) :
    walkFn env rootDir path (some (.symlink a)) none s
      = if a.infoOk then .ok s else .error infoError := by
  unfold walkFn
  simp only [Node.kind, Node.attr]
  cases hi : a.infoOk <;> simp

theorem walkFn_dir (env : Env) (rootDir path : Path) (a : Attr)
    (es : List (String × Node)) (s : List FileInfo × FS) :
    walkFn env rootDir path (some (.dir a es)) none s = .ok s := by
  simp [walkFn, Node.kind]

mutual
/-- The walk of a well-formed tree whose directories can be listed: it fails when
the metadata of some entry cannot be read, and otherwise appends one entry for
every regular file that can be read, in walk order; it changes access times only. -/
theorem walkDir_eq (env : Env) (fs0 : FS) (rootDir : Path) :
    ∀ (n : Node) (ns : List String) (path : Path) (acc : List FileInfo) (cur : FS),
      n.wellFormed = true → n.all listable = true → Visits fs0 rootDir path ns →
      fs0.root.lookup (locate fs0.cwd rootDir ++ ns) = some n → fs0.SameButAtime cur →
      ∃ cur', fs0.SameButAtime cur'
        ∧ walkDir env (walkFn env rootDir) path n (acc, cur)
          = if n.all infoReadable then
              .ok (acc ++ ((n.files ns).filter (fun x => x.2.readable)).map (entryOf env), cur')
            else .error infoError
  | .file a, ns, path, acc, cur, _, _, v, hlook, hs => by
    refine ⟨if a.readable then afterReadDir env cur path else cur, ?_, ?_⟩
    · split
      · exact FS.sameButAtime_read env fs0 cur _ _ hs
      · exact hs
    · simp only [walkDir, walkFn_file env v hs a acc hlook, Node.all, Node.files, infoReadable,
        Node.kind, Node.attr]
      cases a.infoOk <;> simp
  | .symlink a, ns, path, acc, cur, _, _, v, hlook, hs => by
    refine ⟨cur, hs, ?_⟩
    simp only [walkDir, walkFn_symlink, Node.all, Node.files, infoReadable,
      Node.kind, Node.attr]
    cases a.infoOk <;> simp
  | .dir a es, ns, path, acc, cur, hwf, hl, v, hlook, hs => by
    simp only [Node.wellFormed] at hwf
    simp only [Node.all, Bool.and_eq_true] at hl
    obtain ⟨hl1, hl2⟩ := hl
    have hread : a.readable = true := by simpa [listable, Node.kind, Node.attr] using hl1
    have hchild : ∀ c ch, (c, ch) ∈ es →
        fs0.root.lookup (locate fs0.cwd rootDir ++ ns ++ [c]) = some ch := by
      intro c ch hmem
      rw [Node.lookup_append, hlook]
      simp [Node.lookup, findEntry_of_wellFormed es c ch hwf hmem]
    obtain ⟨cur', hs', h⟩ := walkEntries_eq env fs0 rootDir es ns path acc
      (afterReadDir env cur path) hwf hl2 v hchild (FS.sameButAtime_read env fs0 cur _ _ hs)
    refine ⟨cur', hs', ?_⟩
    simp only [walkDir, walkFn_dir, hread, if_true, h, Node.all, Node.files, infoReadable,
      Node.kind]
    simp
/-- The walk of the entries of a directory. -/
theorem walkEntries_eq (env : Env) (fs0 : FS) (rootDir : Path) :
    ∀ (es : List (String × Node)) (ns : List String) (path : Path) (acc : List FileInfo)
      (cur : FS),
      entriesWellFormed es = true → entriesAll listable es = true → Visits fs0 rootDir path ns →
      (∀ c ch, (c, ch) ∈ es → fs0.root.lookup (locate fs0.cwd rootDir ++ ns ++ [c]) = some ch) →
      fs0.SameButAtime cur →
      ∃ cur', fs0.SameButAtime cur'
        ∧ walkEntries env (walkFn env rootDir) path es (acc, cur)
          = if entriesAll infoReadable es then
              .ok (acc ++ ((entriesFiles ns es).filter (fun x => x.2.readable)).map
                (entryOf env), cur')
            else .error infoError
  | [], ns, path, acc, cur, _, _, _, _, hs => by
    exact ⟨cur, hs, by simp [walkEntries, entriesAll, entriesFiles]⟩
  | (c, n) :: rest, ns, path, acc, cur, hwf, hl, v, hchild, hs => by
    simp only [entriesWellFormed, Bool.and_eq_true] at hwf
    obtain ⟨⟨⟨hc, _⟩, hn⟩, hrest⟩ := hwf
    simp only [entriesAll, Bool.and_eq_true] at hl
    obtain ⟨hl1, hl2⟩ := hl
    obtain ⟨cur1, hs1, h1⟩ := walkDir_eq env fs0 rootDir n (ns ++ [c]) (Join path [c]) acc cur
      hn hl1 (v.child c hc)
      (by rw [← List.append_assoc]; exact hchild c n (List.mem_cons_self _ _)) hs
    cases hi : n.all infoReadable with
    | false =>
      refine ⟨cur, hs, ?_⟩
      rw [hi] at h1
      simp [walkEntries, h1, entriesAll, hi]
    | true =>
      rw [hi] at h1
      obtain ⟨cur2, hs2, h2⟩ := walkEntries_eq env fs0 rootDir rest ns path
        (acc ++ ((n.files (ns ++ [c])).filter (fun x => x.2.readable)).map (entryOf env)) cur1
        hrest hl2 v (fun c' ch hm => hchild c' ch (List.mem_cons_of_mem _ hm)) hs1
      refine ⟨cur2, hs2, ?_⟩
      simp only [walkEntries, h1, if_true, h2, entriesAll, entriesFiles, hi, Bool.true_and]
      cases entriesAll infoReadable rest <;> simp
end

end Save

/-- The walk of `main` over a well-formed tree whose directories can be listed. -/
theorem Save.mainWalk_eq (env : Env) (fs : FS) (rootDir : Path) (n : Node)
    (hroot : os_Lstat fs rootDir = some n) (hwf : n.wellFormed = true)
    (hl : n.all listable = true) :
    ∃ fs1, fs.SameButAtime fs1
      ∧ Save.mainWalk env rootDir fs
        = if n.all infoReadable then .ok (Save.manifestOf env n, fs1)
          else .error Save.infoError := by
  obtain ⟨hne, hlook⟩ := os_Lstat_some fs rootDir n hroot
  obtain ⟨fs1, hs, h⟩ := Save.walkDir_eq env fs rootDir n [] rootDir [] fs hwf hl
    (Save.Visits.root fs rootDir hne) (by simpa using hlook) (FS.sameButAtime_refl fs)
  refine ⟨fs1, hs, ?_⟩
  unfold Save.mainWalk Save.WalkDir
  simp only [hne, hroot, Bool.false_eq_true, if_false]
  rw [h]
  simp [Save.manifestOf]

/-! ## Lemmas on the writing of the manifest file -/

theorem findEntry_append (c : String) (es es' : List (String × Node)) :
    findEntry c (es ++ es') = (findEntry c es).orElse (fun _ => findEntry c es') := by
  induction es with
  | nil => simp [findEntry]
  | cons e rest ih =>
    obtain ⟨name, n⟩ := e
    by_cases h : name = c
    · simp [findEntry, h]
    · simp [findEntry, h, ih]

/-- Writing a file at `L` changes, away from `L`, at most the attributes of the
directory the file is created in. -/
theorem Node.putFile_lookup (fresh : Attr) (f g : Attr → Attr) :
    ∀ (L : List String) (n n' : Node) (q : List String),
      n.putFile fresh f g L = some n' → q ≠ L →
      (n'.lookup q).map Node.shallow = (n.lookup q).map Node.shallow
        ∨ ∃ a, (n.lookup q).map Node.shallow = some (Kind.directory, a)
            ∧ (n'.lookup q).map Node.shallow = some (Kind.directory, g a) := by
  intro L
  induction L with
  | nil =>
    intro n n' q h hq
    cases n with
    | file a =>
      simp only [Node.putFile] at h
      split at h
      · cases h
        cases q with
        | nil => exact absurd rfl hq
        | cons c cs => left; simp [Node.lookup]
      · cases h
    | symlink a => simp [Node.putFile] at h
    | dir a es => simp [Node.putFile] at h
  | cons c cs ih =>
    intro n n' q h hq
    cases n with
    | file a => simp [Node.putFile] at h
    | symlink a => simp [Node.putFile] at h
    | dir a es =>
      simp only [Node.putFile] at h
      cases hf : findEntry c es with
      | some ch =>
        rw [hf] at h
        simp only at h
        cases hp : ch.putFile fresh f g cs with
        | none => rw [hp] at h; cases h
        | some ch' =>
          rw [hp] at h
          simp only [Option.some.injEq] at h
          subst h
          cases q with
          | nil => left; simp [Node.lookup, Node.shallow, Node.kind, Node.attr]
          | cons c' cs' =>
            simp only [Node.lookup, findEntry_modifyEntry]
            by_cases hc : c' = c
            · subst hc
              have hne : cs' ≠ cs := fun h => hq (by rw [h])
              simp only [if_true, hf, Option.map_some']
              exact ih ch ch' cs' hp hne
            · left; simp [hc]
      | none =>
        rw [hf] at h
        simp only at h
        split at h
        · rename_i hcond
          obtain ⟨hcs, _⟩ := hcond
          subst hcs
          simp only [Option.some.injEq] at h
          subst h
          cases q with
          | nil =>
            right
            exact ⟨a, by simp [Node.lookup, Node.shallow, Node.kind, Node.attr],
              by simp [Node.lookup, Node.shallow, Node.kind, Node.attr]⟩
          | cons c' cs' =>
            left
            simp only [Node.lookup, findEntry_append]
            by_cases hc : c' = c
            · subst hc
              have hne : cs' ≠ [] := fun h => hq (by rw [h])
              cases cs' with
              | nil => exact absurd rfl hne
              | cons d ds => simp [hf, findEntry, Node.lookup]
            · have hc' : ¬ c = c' := fun h => hc h.symm
              cases findEntry c' es <;> simp [findEntry, hc']
        · cases h

/-- A file can be written where `canWrite` says so. -/
theorem Node.putFile_of_canWrite (fresh : Attr) (f g : Attr → Attr) :
    ∀ (L : List String) (n : Node), n.canWrite L = true →
      ∃ n', n.putFile fresh f g L = some n' := by
  intro L
  induction L with
  | nil =>
    intro n h
    cases n with
    | file a =>
      simp only [Node.canWrite, Node.access, Node.lookup, Option.map_some', Node.kind,
        Node.attr] at h
      simp [Node.putFile, h]
    | symlink a => simp [Node.canWrite, Node.access, Node.lookup, Node.kind] at h
    | dir a es => simp [Node.canWrite, Node.access, Node.lookup, Node.kind] at h
  | cons c cs ih =>
    intro n h
    cases n with
    | file a =>
      cases cs <;> simp [Node.canWrite, Node.access, Node.lookup, Node.kind, List.dropLast] at h
    | symlink a =>
      cases cs <;> simp [Node.canWrite, Node.access, Node.lookup, Node.kind, List.dropLast] at h
    | dir a es =>
      cases hf : findEntry c es with
      | some ch =>
        have hch : ch.canWrite cs = true := by
          cases cs with
          | nil =>
            simp only [Node.canWrite, Node.access, Node.lookup, hf, Option.map_some'] at h ⊢
            cases hk : ch.kind <;> rw [hk] at h <;> exact h
          | cons d ds =>
            simp only [Node.canWrite, Node.access, Node.lookup, hf, List.dropLast] at h ⊢
            exact h
        obtain ⟨ch', hch'⟩ := ih ch hch
        simp [Node.putFile, hf, hch']
      | none =>
        cases cs with
        | nil =>
          simp only [Node.canWrite, Node.access, Node.lookup, hf, Option.map_none',
            List.dropLast, Option.map_some', Node.kind, Node.attr] at h
          simp [Node.putFile, hf, h]
        | cons d ds =>
          simp [Node.canWrite, Node.access, Node.lookup, hf, List.dropLast] at h

theorem FS.SameButAtime.access {fs fs1 : FS} (h : fs.SameButAtime fs1) (q : List String) :
    fs1.root.access q = fs.root.access q := by
  have := congrArg (Option.map (fun x : Kind × Attr => (x.1, x.2.writable))) (h.2 q)
  simp only [Option.map_map, FS.info] at this
  exact this.symm

/-- Whether a file can be written does not depend on access times. -/
theorem FS.SameButAtime.canWrite {fs fs1 : FS} (h : fs.SameButAtime fs1) (L : List String) :
    fs1.canWrite L = fs.canWrite L := by
  unfold FS.canWrite Node.canWrite
  rw [h.access L, h.access L.dropLast]

/-- The call `os.WriteFile` succeeds where a file can be written, and away from
the written file it changes at most the attributes of a directory. -/
theorem os_WriteFile_ok (env : Env) (fs : FS) (path : Path) (content : String)
    (hne : path.isEmpty = false) (hw : fs.canWrite (locate fs.cwd path) = true) :
    ∃ fs', os_WriteFile env fs path content = .ok fs' ∧ fs'.cwd = fs.cwd
      ∧ ∀ q, q ≠ locate fs.cwd path →
          fs'.info q = fs.info q
            ∨ ∃ a b, fs.info q = some (Kind.directory, a) ∧ fs'.info q = some (Kind.directory, b) := by
  obtain ⟨n', hn'⟩ := Node.putFile_of_canWrite (Attr.created (env.now fs.tick) content)
    (Attr.overwritten (env.now fs.tick) content) (Attr.entryAdded (env.now fs.tick))
    (locate fs.cwd path) fs.root hw
  refine ⟨{ fs with root := n', tick := fs.tick + 1 }, ?_, rfl, ?_⟩
  · simp [os_WriteFile, hne, hn']
  · intro q hq
    rcases Node.putFile_lookup _ _ _ _ fs.root n' q hn' hq with h | ⟨a, h1, h2⟩
    · left; exact h
    · right; exact ⟨a, _, h1, h2⟩

/-! ## The snapshotter: claims -/

/-- C8: for a tree whose directories can be listed and whose metadata can be read,
the walk succeeds and the slice it builds is the walk-order sequence of the
regular files whose hashing succeeds, each with its path relative to the root,
the hash of its content and its modification time.  Every entry has
`IsDirectory = false`; every regular file that can be read, wherever it lies
below the root, has its entry; and every entry is the entry of such a file, so
that directories and symbolic links have none.  The records `main` writes, when
it gets as far as writing, are the encodings of these entries. -/
theorem snapshot_manifest (env : Env) (fs : FS) (rootDir : Path) (n : Node)
    (hroot : os_Lstat fs rootDir = some n) (hwf : n.wellFormed = true)
    (hl : n.all listable = true) (hi : n.all infoReadable = true) :
    ∃ m fs1, Save.mainWalk env rootDir fs = .ok (m, fs1)
      ∧ m = ((n.files []).filter (fun x => x.2.readable)).map
            (fun x => { Path := if x.1 = [] then ["."] else x.1,
                        Hash := env.sha256hex x.2.content,
                        ModTime := x.2.mtime, IsDirectory := false })
      ∧ (∀ x ∈ m, x.IsDirectory = false)
      ∧ (∀ p a, n.lookup p = some (.file a) → a.readable = true →
          (⟨if p = [] then ["."] else p, env.sha256hex a.content, a.mtime, false⟩
            : Save.FileInfo) ∈ m)
      ∧ (∀ x ∈ m, ∃ p a, n.lookup p = some (.file a) ∧ a.readable = true
          ∧ x = ⟨if p = [] then ["."] else p, env.sha256hex a.content, a.mtime, false⟩)
      ∧ (∀ records fs2, Save.main env rootDir fs = .ok (records, fs2) →
          Save.marshalAll env m = .ok records) := by
  obtain ⟨fs1, _, h⟩ := Save.mainWalk_eq env fs rootDir n hroot hwf hl
  rw [hi, if_pos rfl] at h
  refine ⟨_, fs1, h, rfl, ?_, ?_, ?_, ?_⟩
  · intro x hx
    simp only [Save.manifestOf, List.mem_map] at hx
    obtain ⟨y, _, hy⟩ := hx
    rw [← hy]
    rfl
  · intro p a hp hr
    have hm := Node.mem_files a p [] n hp
    simp only [List.nil_append] at hm
    exact List.mem_map_of_mem (Save.entryOf env) (List.mem_filter.mpr ⟨hm, hr⟩)
  · intro x hx
    simp only [Save.manifestOf, List.mem_map, List.mem_filter] at hx
    obtain ⟨y, ⟨hy, hr⟩, hxy⟩ := hx
    obtain ⟨q, a⟩ := y
    obtain ⟨p, hq, _, hlk⟩ := Node.files_lookup a n [] q hwf hy
    simp only [List.nil_append] at hq
    subst hq
    exact ⟨q, a, hlk, hr, hxy.symm⟩
  · intro records fs2 hmain
    unfold Save.main at hmain
    rw [h] at hmain
    simp only at hmain
    cases hma : Save.marshalAll env (Save.manifestOf env n) with
    | error e => rw [hma] at hmain; cases hmain
    | ok rs =>
      rw [hma] at hmain
      simp only at hmain
      cases hw : os_WriteFile env fs1 Save.outputFile (env.jsonText rs) with
      | error e => rw [hw] at hmain; cases hmain
      | ok fs' =>
        rw [hw] at hmain
        simp only [Except.ok.injEq, Prod.mk.injEq] at hmain
        rw [hmain.1]

/-- The snapshot of `walkTree`, taken with the relative root `r`: the link and the
unreadable file have no entry, the file next to the unreadable one has. -/
theorem snapshot_manifest_witness :
    ∃ m fs1, Save.mainWalk sampleEnv ["r"] walkFS = .ok (m, fs1)
      ∧ m = [⟨["a.txt"], "sha:hello", 1, false⟩, ⟨["s", "v.txt"], "sha:world", 2, false⟩] := by
  obtain ⟨m, fs1, h1, h2, _⟩ := snapshot_manifest sampleEnv walkFS ["r"] walkTree rfl
    (by decide) (by decide) (by decide)
  exact ⟨m, fs1, h1, h2.trans (by decide)⟩

/-- C9, as stated, fails: in `brokenTree` every directory can be listed and only the
metadata of the one file `a.txt` cannot be read, yet the walk ends with that error
and there is no manifest, although `b.txt` can be read. -/
theorem snapshot_metadata_failure_counterexample :
    (os_Lstat brokenFS sampleRoot).isSome = true
      ∧ brokenTree.all listable = true
      ∧ brokenTree.wellFormed = true
      ∧ (brokenTree.lookup ["b.txt"]).map Node.shallow
          = some (Kind.regular, sampleAttr "world" 2 9)
      ∧ Save.mainWalk sampleEnv sampleRoot brokenFS = .error Save.infoError
      ∧ Save.main sampleEnv sampleRoot brokenFS = .error Save.infoError :=
  ⟨by decide, by decide, by decide, by decide, rfl, rfl⟩

/-- C9, amended: in a tree whose directories can be listed, a file whose content
cannot be hashed is skipped and nothing else: when all metadata can be read the
walk succeeds and its manifest has an entry for every regular file that can
be read.  A failure to read the metadata of an entry is not local: the walk then
ends with that error, and so does `main`. -/
theorem snapshot_local_failures (env : Env) (fs : FS) (rootDir : Path) (n : Node)
    (hroot : os_Lstat fs rootDir = some n) (hwf : n.wellFormed = true)
    (hl : n.all listable = true) :
    (n.all infoReadable = true →
        ∃ m fs1, Save.mainWalk env rootDir fs = .ok (m, fs1)
          ∧ ∀ p a, n.lookup p = some (.file a) → a.readable = true →
              Save.entryOf env (p, a) ∈ m)
      ∧ (n.all infoReadable = false →
          Save.mainWalk env rootDir fs = .error Save.infoError
            ∧ Save.main env rootDir fs = .error Save.infoError) := by
  obtain ⟨fs1, _, h⟩ := Save.mainWalk_eq env fs rootDir n hroot hwf hl
  constructor
  · intro hi
    rw [hi] at h
    refine ⟨_, fs1, h, ?_⟩
    intro p a hp hr
    have hm := Node.mem_files a p [] n hp
    simp only [List.nil_append] at hm
    exact List.mem_map_of_mem _ (List.mem_filter.mpr ⟨hm, hr⟩)
  · intro hi
    rw [hi] at h
    refine ⟨h, ?_⟩
    unfold Save.main
    rw [h]
    rfl

/-- In `walkTree` the file `s/u.txt` cannot be read and `s/v.txt` has its entry; in
`brokenTree` the metadata of `a.txt` cannot be read and the snapshot fails. -/
theorem snapshot_local_failures_witness :
    (∃ m fs1, Save.mainWalk sampleEnv ["r"] walkFS = .ok (m, fs1)
        ∧ Save.entryOf sampleEnv (["s", "v.txt"], sampleAttr "world" 2 9) ∈ m)
      ∧ Save.main sampleEnv sampleRoot brokenFS = .error Save.infoError := by
  constructor
  · obtain ⟨m, fs1, h1, h2⟩ := (snapshot_local_failures sampleEnv walkFS ["r"] walkTree rfl
      (by decide) (by decide)).1 (by decide)
    exact ⟨m, fs1, h1, h2 ["s", "v.txt"] _ rfl rfl⟩
  · exact ((snapshot_local_failures sampleEnv brokenFS sampleRoot brokenTree rfl
      (by decide) (by decide)).2 (by decide)).2

/-! ## Snapshot, then restore: claims -/

theorem timeKept_iff (env : Env) (t : Time) :
    timeKept env t = true ↔
      inInt64 t = true ∧ env.zoneOffset t % 60 = 0 ∧ -86400 < env.zoneOffset t
        ∧ env.zoneOffset t < 86400 ∧ env.storedMtime t = t := by
  simp [timeKept, and_assoc]

/-- The text written for a time that survives the round is read back as that time. -/
theorem time_Parse_timeText (env : Env) (t : Time) (h : timeKept env t = true) :
    formatRFC3339Nano (env.zoneOffset t) t = .ok (timeText env t)
      ∧ time_Parse env (timeText env t) = some t := by
  obtain ⟨h1, h2, h3, h4, _⟩ := (timeKept_iff env t).mp h
  obtain ⟨s, hs⟩ := formatRFC3339Nano_ok (env.zoneOffset t) t h1 h3 h4
  have hp := parseRFC3339_format (env.zoneOffset t) t s h2 hs
  have ht : timeText env t = s := by simp [timeText, hs]
  rw [ht]
  exact ⟨hs, by simp [time_Parse, hp]⟩

theorem Save.marshalAll_ok (env : Env) :
    ∀ m : List Save.FileInfo, (∀ x ∈ m, timeKept env x.ModTime = true) →
      Save.marshalAll env m = .ok (m.map (recordOf env)) := by
  intro m
  induction m with
  | nil => intro _; rfl
  | cons x rest ih =>
    intro h
    have h1 := (time_Parse_timeText env x.ModTime (h x (List.mem_cons_self _ _))).1
    have h2 := ih (fun y hy => h y (List.mem_cons_of_mem _ hy))
    simp [Save.marshalAll, Save.marshal, h1, h2, recordOf]

theorem files_readable (n : Node) (hwf : n.wellFormed = true) (hu : n.all fileUsable = true) :
    (n.files []).filter (fun x => x.2.readable) = n.files [] := by
  apply List.filter_eq_self.mpr
  intro x hx
  obtain ⟨q, a⟩ := x
  obtain ⟨p, _, _, hlk⟩ := Node.files_lookup a n [] q hwf hx
  have huse := Node.all_lookup fileUsable p n _ hu hlk
  simp only [fileUsable, Node.kind, Node.attr, bne_self_eq_false, Bool.false_or,
    Bool.and_eq_true] at huse
  exact huse.1

theorem readBack_manifest (env : Env) (n : Node) (hwf : n.wellFormed = true)
    (hu : n.all fileUsable = true) :
    ((Save.manifestOf env n).map (recordOf env)).map Restore.unmarshal
      = (n.files []).map (readBack env) := by
  unfold Save.manifestOf
  rw [files_readable n hwf hu, List.map_map, List.map_map]
  rfl

theorem target_readBack (env : Env) (cwd : List String) (rootDir : Path) (q : List String)
    (a : Attr) (hne : rootDir.isEmpty = false) (hq : ∀ c ∈ q, validName c = true) :
    Restore.target cwd rootDir (readBack env (q, a)) = locate cwd rootDir ++ q := by
  unfold Restore.target readBack
  by_cases h : q = []
  · subst h
    simp only [if_true]
    rw [locate_Join cwd rootDir ["."] hne]
    simp [cleanStack, cleanStep]
  · simp only [h, if_false]
    exact locate_Join_names cwd rootDir q hne hq

open Restore in
/-- An entry read back for a usable file of the tree, in a state in which the
file is as it was up to its access time: the entry is aimed at that file and is
not skipped; the time it applies is the modification time of the file. -/
theorem readBack_verdict (env : Env) (fs fs2 : FS) (rootDir : Path) (n : Node)
    (hroot : os_Lstat fs rootDir = some n) (hwf : n.wellFormed = true)
    (hu : n.all fileUsable = true) (ht : n.all (mtimeKept env) = true)
    (hcwd : fs2.cwd = fs.cwd)
    (hkeep : ∀ q a, fs.info q = some (Kind.regular, a) → q ≠ fs.manifestLoc →
      ∃ a', fs2.info q = some (Kind.regular, a') ∧ a'.noAtime = a.noAtime)
    (hapart : manifestApart fs rootDir n = true)
    (x : List String × Attr) (hx : x ∈ n.files []) :
    target fs2.cwd rootDir (readBack env x) = locate fs.cwd rootDir ++ x.1
      ∧ n.lookup x.1 = some (.file x.2)
      ∧ timeKept env x.2.mtime = true
      ∧ (∃ a', fs2.info (locate fs.cwd rootDir ++ x.1) = some (Kind.regular, a')
          ∧ a'.noAtime = x.2.noAtime)
      ∧ verdict env rootDir fs2 (readBack env x) = some x.2.mtime := by
  obtain ⟨q, a⟩ := x
  obtain ⟨hne, hlook⟩ := os_Lstat_some fs rootDir n hroot
  obtain ⟨p, hq, hp, hlk⟩ := Node.files_lookup a n [] q hwf hx
  simp only [List.nil_append] at hq
  subst hq
  have huse := Node.all_lookup fileUsable q n _ hu hlk
  simp only [fileUsable, Node.kind, Node.attr, bne_self_eq_false, Bool.false_or,
    Bool.and_eq_true] at huse
  have hkept := Node.all_lookup (mtimeKept env) q n _ ht hlk
  simp only [mtimeKept, Node.kind, Node.attr, bne_self_eq_false, Bool.false_or] at hkept
  have htarget : target fs2.cwd rootDir (readBack env (q, a)) = locate fs.cwd rootDir ++ q := by
    rw [hcwd]
    exact target_readBack env fs.cwd rootDir q a hne hp
  have hinfo : fs.info (locate fs.cwd rootDir ++ q) = some (Kind.regular, a) := by
    unfold FS.info
    rw [Node.lookup_append, hlook]
    simp [hlk, Node.shallow, Node.kind, Node.attr]
  have hap : locate fs.cwd rootDir ++ q ≠ fs.manifestLoc := by
    unfold manifestApart at hapart
    have := List.all_eq_true.mp hapart (q, a) hx
    simpa using this
  obtain ⟨a', hi2, ha'⟩ := hkeep _ a hinfo hap
  refine ⟨htarget, hlk, hkept, ⟨a', hi2, ha'⟩, ?_⟩
  have hr : a'.readable = a.readable :=
    (congrArg Attr.readable ha' : a'.noAtime.readable = a.noAtime.readable)
  have hs : a'.settable = a.settable :=
    (congrArg Attr.settable ha' : a'.noAtime.settable = a.noAtime.settable)
  have hc : a'.content = a.content :=
    (congrArg Attr.content ha' : a'.noAtime.content = a.noAtime.content)
  unfold verdict
  rw [htarget, hi2]
  have hje : (Join rootDir (readBack env (q, a)).Path).isEmpty = false := Join_isEmpty _ _ hne
  simp only [hje, Bool.false_eq_true, if_false]
  simp [hr, hs, hc, huse.1, huse.2, readBack, (time_Parse_timeText env a.mtime hkept).2]

open Restore in
/-- C5, as stated, fails, in two ways.  The snapshotter writes its manifest into
the working directory: run from inside the tree `/r` that holds the manifest of
an earlier snapshot, it records that file with the hash of its old content and
then overwrites it, so that the restore reports three entries and two updated
files for a tree of three regular files that can all be read and
re-timestamped.  And a file whose modification time lies in the year 2300 comes
out of the round with another modification time, although its entry is counted
as updated. -/
theorem snapshot_restore_counterexample :
    staleTree.all fileUsable = true
      ∧ (staleTree.files []).length = 3
      ∧ (roundTrip sampleEnv ["."] staleFS).toOption.map (fun r => (r.parsed, r.updated))
          = some (3, 2)
      ∧ lateFS.mtimeAt ["r", "late.txt"] = some 10413792000000000000
      ∧ (roundTrip sampleEnv sampleRoot lateFS).toOption.map
            (fun r => (r.parsed, r.updated, r.fs.mtimeAt ["r", "late.txt"]))
          = some (1, 1, some (-8032952073709551616)) := by
  decide

open Restore in
/-- C5, amended: for a tree of regular files, directories and symbolic links with
ordinary, distinct names in every directory, whose directories can be listed,
whose metadata can be read and whose regular files can all be read and
re-timestamped, whose modification times survive the round through the
manifest, and for a manifest file that is not itself one of the files of the
tree and can be written: the snapshot succeeds, and restoring the records it
wrote onto the same tree parses every recorded time, finds every recorded hash,
reports total and updated both equal to the number of regular files, leaves
every file with the modification time it had before the snapshot and leaves the
timestamps of every directory untouched; no record is a directory record. -/
theorem snapshot_restore_roundtrip (env : Env) (fs : FS) (rootDir : Path) (n : Node)
    (hroot : os_Lstat fs rootDir = some n) (hwf : n.wellFormed = true)
    (hl : n.all listable = true) (hi : n.all infoReadable = true)
    (hu : n.all fileUsable = true) (ht : n.all (mtimeKept env) = true)
    (hapart : manifestApart fs rootDir n = true)
    (hw : fs.canWrite fs.manifestLoc = true) :
    ∃ records fs2 report, Save.main env rootDir fs = .ok (records, fs2)
      ∧ roundTrip env rootDir fs = .ok report
      ∧ (∀ r ∈ records, r.is_directory = false
          ∧ (time_Parse env r.mod_time).isSome = true
          ∧ (hash_file env fs2 (Join rootDir r.path)).1 = .ok r.hash)
      ∧ report.parsed = (n.files []).length
      ∧ report.updated = (n.files []).length
      ∧ (∀ p a, n.lookup p = some (.file a) →
          fs.mtimeAt (locate fs.cwd rootDir ++ p) = some a.mtime
            ∧ report.fs.mtimeAt (locate fs.cwd rootDir ++ p) = some a.mtime)
      ∧ (∀ loc a, fs2.info loc = some (Kind.directory, a) →
          report.fs.timesAt loc = fs2.timesAt loc) := by
  obtain ⟨hne, hlook⟩ := os_Lstat_some fs rootDir n hroot
  obtain ⟨fs1, hs1, hwalk⟩ := Save.mainWalk_eq env fs rootDir n hroot hwf hl
  rw [hi, if_pos rfl] at hwalk
  have hkeptAll : ∀ x ∈ Save.manifestOf env n, timeKept env x.ModTime = true := by
    intro x hx
    simp only [Save.manifestOf, List.mem_map, List.mem_filter] at hx
    obtain ⟨y, ⟨hy, _⟩, hxy⟩ := hx
    obtain ⟨q, a⟩ := y
    obtain ⟨p, _, _, hlk⟩ := Node.files_lookup a n [] q hwf hy
    have hk := Node.all_lookup (mtimeKept env) p n _ ht hlk
    simp only [mtimeKept, Node.kind, Node.attr, bne_self_eq_false, Bool.false_or] at hk
    rw [← hxy]
    exact hk
  have hmarshal := Save.marshalAll_ok env (Save.manifestOf env n) hkeptAll
  have hw1 : fs1.canWrite (locate fs1.cwd Save.outputFile) = true := by
    rw [← hs1.1, hs1.canWrite]
    exact hw
  obtain ⟨fs2, hwrite, hcwd2, hrest⟩ := os_WriteFile_ok env fs1 Save.outputFile
    (env.jsonText ((Save.manifestOf env n).map (recordOf env))) (by decide) hw1
  have hmain : Save.main env rootDir fs
      = .ok ((Save.manifestOf env n).map (recordOf env), fs2) := by
    unfold Save.main
    rw [hwalk]
    simp only [hmarshal, hwrite]
  have hback := readBack_manifest env n hwf hu
  have hkeep : ∀ q a, fs.info q = some (Kind.regular, a) → q ≠ fs.manifestLoc →
      ∃ a', fs2.info q = some (Kind.regular, a') ∧ a'.noAtime = a.noAtime := by
    intro q a hq hne'
    obtain ⟨a1, h1, h2⟩ := hs1.info q Kind.regular a hq
    have hne1 : q ≠ locate fs1.cwd Save.outputFile := by
      rw [← hs1.1]; exact hne'
    rcases hrest q hne1 with h | ⟨b, c, h, _⟩
    · exact ⟨a1, by rw [h, h1], h2⟩
    · rw [h1] at h; cases h
  have hcwd : fs2.cwd = fs.cwd := by rw [hcwd2, ← hs1.1]
  have hv := fun x hx => readBack_verdict env fs fs2 rootDir n hroot hwf hu ht hcwd hkeep
    hapart x hx
  have hround : roundTrip env rootDir fs
      = .ok (main env rootDir ((n.files []).map (readBack env)) fs2) := by
    unfold roundTrip
    rw [hmain]
    simp only [hback]
  refine ⟨_, fs2, _, hmain, hround, ?_, ?_, ?_, ?_, ?_⟩
  · intro r hr
    simp only [Save.manifestOf, List.mem_map, List.mem_filter] at hr
    obtain ⟨e, ⟨y, ⟨hy, _⟩, hey⟩, hre⟩ := hr
    obtain ⟨_, _, hk, _, hver⟩ := hv y hy
    have hc : counted env rootDir fs2 (readBack env y) = true := by
      rw [counted_eq, hver]; rfl
    have hry : unmarshal r = readBack env y := by
      rw [← hre, ← hey]; rfl
    refine ⟨by rw [← hre, ← hey]; rfl, ?_, ?_⟩
    · have : r.mod_time = timeText env y.2.mtime := by rw [← hre, ← hey]; rfl
      rw [this, (time_Parse_timeText env y.2.mtime hk).2]
      rfl
    · unfold counted at hc
      simp only [Bool.and_eq_true, beq_iff_eq] at hc
      have := hc.1.2
      rw [← hry] at this
      exact this
  · show ((n.files []).map (readBack env)).length = _
    simp
  · rw [main_updated, List.countP_eq_length.mpr]
    · simp
    · intro x hx
      rw [List.mem_map] at hx
      obtain ⟨y, hy, hxy⟩ := hx
      subst hxy
      rw [(hv y hy).2.2.2.2]; rfl
  · intro p a hp
    have hinfo : fs.info (locate fs.cwd rootDir ++ p) = some (Kind.regular, a) := by
      unfold FS.info
      rw [Node.lookup_append, hlook]
      simp [hp, Node.shallow, Node.kind, Node.attr]
    have hm0 : fs.mtimeAt (locate fs.cwd rootDir ++ p) = some a.mtime := by
      rw [FS.mtimeAt_eq, hinfo]; rfl
    refine ⟨hm0, ?_⟩
    have hmem := Node.mem_files a p [] n hp
    simp only [List.nil_append] at hmem
    obtain ⟨_, _, hk, ⟨a', hi2, ha'⟩, _⟩ := hv (p, a) hmem
    have hm2 : fs2.mtimeAt (locate fs.cwd rootDir ++ p) = some a.mtime := by
      rw [FS.mtimeAt_eq, hi2]
      exact congrArg some (congrArg Attr.mtime ha' : a'.noAtime.mtime = a.noAtime.mtime)
    rw [main_mtime]
    cases hlw : lastWritten env rootDir fs2 (locate fs.cwd rootDir ++ p)
        ((n.files []).map (readBack env)) with
    | none => exact hm2
    | some w =>
      obtain ⟨x, hx, hloc, hwr⟩ := lastWritten_some env rootDir fs2 _ w _ hlw
      rw [List.mem_map] at hx
      obtain ⟨y, hy, hxy⟩ := hx
      subst hxy
      obtain ⟨htg, hlk, hky, _, hver⟩ := hv y hy
      rw [htg] at hloc
      have hyp : y.1 = p := List.append_cancel_left hloc
      rw [hyp, hp] at hlk
      have hya : y.2 = a := by
        simp only [Option.some.injEq, Node.file.injEq] at hlk
        exact hlk.symm
      simp only [written, hver, hya] at hwr
      have hwa : w = a.mtime := by
        by_cases hz : a.mtime = zeroTime
        · simp [hz] at hwr
        · simp only [hz, if_false, Option.some.injEq] at hwr
          exact hwr.symm
      obtain ⟨h1, _, _, _, h5⟩ := (timeKept_iff env a.mtime).mp hk
      simp only [hm2, Option.map_some', hwa, wrap64_of_inInt64 a.mtime h1, h5]
  · intro loc a hdir
    rw [FS.timesAt_eq, FS.timesAt_eq, main_info_unread env rootDir _ fs2 loc
      (fun x _ hx => (verdict_directory env rootDir fs2 x a (hx ▸ hdir)).2)]

/-- Snapshot and restore of the tree `/r` of `sampleFS`, from the working
directory `/`. -/
theorem snapshot_restore_roundtrip_witness :
    ∃ records fs2 report, Save.main sampleEnv sampleRoot sampleFS = .ok (records, fs2)
      ∧ roundTrip sampleEnv sampleRoot sampleFS = .ok report
      ∧ report.parsed = 2 ∧ report.updated = 2
      ∧ report.fs.mtimeAt ["r", "b", "c.txt"] = some 2 := by
  obtain ⟨records, fs2, report, h1, h2, _, h4, h5, h6, _⟩ :=
    snapshot_restore_roundtrip sampleEnv sampleFS sampleRoot sampleTree rfl (by decide)
      (by decide) (by decide) (by decide) (by decide) (by decide) (by decide)
  exact ⟨records, fs2, report, h1, h2, h4.trans (by decide), h5.trans (by decide),
    (h6 ["b", "c.txt"] (sampleAttr "world" 2 9) rfl).2⟩

end Mtime
